import Mathlib

/-!
# MPI micro-benchmarks of the SimGrid topology study

Shallow embedding of the seven benchmark programs
(`all2all.c`, `bcast.c`, `bcastflex.c`, `pingpong.c`, `pingpongflex.c`,
`reduce.c`, `scatter.c`).

Each `main` is a function of what the process receives from its environment
(its rank and the group size as delivered by `MPI_Comm_rank` / `MPI_Comm_size`,
the value `atoi(argv[1])` when an argument is present, and the outcome of each
`malloc`) and returns the sequence of library calls it performs together with
its exit code.

* C `int` values are integers; an `int` expression that can leave the 32-bit
  range is wrapped with `wrapInt32`, a conversion to `size_t` is `toSizeT`
  (64 bits), the conversion `memset` applies to its fill value is `toUChar`.
* A `for (i = lo; i < hi; i++)` loop is `forLoop lo hi body`.
* Buffers are named after the C variable that holds them.
-/

namespace SimGridBench

/-! ## Machine integers -/

/-- Value of a C `int` whose mathematical value is `x`: two's complement, 32 bits. -/
def wrapInt32 (x : Int) : Int := (x + 2147483648) % 4294967296 - 2147483648

/-- Conversion of an integer value to `size_t` (unsigned, 64 bits). -/
def toSizeT (x : Int) : Nat := (x % 18446744073709551616).toNat

/-- Product of two `size_t` values. -/
def mulSizeT (a b : Nat) : Nat := (a * b) % 18446744073709551616

/-- Conversion of an `int` to `unsigned char`, applied by `memset` to its fill value. -/
def toUChar (x : Int) : Int := x % 256

/-- Largest value of a C `int`. -/
def INT_MAX : Int := 2147483647

/-! ## Constants of the programs -/

/-- The macro `MAX_SIZE` (1 MB). -/
def MAX_SIZE : Int := 1048576

/-- The macro `IT`: number of iterations of every timed loop. -/
def IT : Int := 100

/-- The initial value of the local variable `msg_size`. -/
def msg_size : Int := 1024

/-- Value of `sizeof(int)`. -/
def sizeofInt : Nat := 4

/-! ## Calls, diagnostics, traces -/

/-- The C pointer variables that hold buffers. -/
inductive Buf where
  | buffer
  | send_buffer
  | recv_buffer
  deriving DecidableEq, Repr

/-- The diagnostics the programs print, with the values substituted in the format. -/
inductive Diag where
  /-- Text "Erro: O rank do master (%d) é inválido. Deve estar entre 0 e %d." -/
  | invalidMaster (master upper : Int)
  /-- Text "Erro: O rank do root (%d) é inválido. Deve estar entre 0 e %d." -/
  | invalidRoot (root upper : Int)
  /-- Text "Este teste requer pelo menos 2 processos MPI." -/
  | needTwo
  /-- Text "Error: Falha de memória na alocação do processo %d" -/
  | allocFail (rank : Int)
  /-- Text "Error: Falha de memória na alocação do <variable> no processo %d" -/
  | allocFailVar (var : Buf) (rank : Int)
  /-- Text "Error: Falha de memória na alocação do <variable> no processo 0" (literal 0) -/
  | allocFailVarRoot (var : Buf)
  /-- Text "Falha de alocação: %zu bytes por buffer" (on stderr) -/
  | allocFailBytes (total : Nat)
  deriving DecidableEq, Repr

/-- The process rank a diagnostic names, when it names one. -/
def Diag.identity : Diag → Option Int
  | .allocFail r => some r
  | .allocFailVar _ r => some r
  | .allocFailVarRoot _ => some 0
  | _ => none

/-- One library call of a process. -/
inductive Event where
  /-- `MPI_Init` -/
  | init
  /-- `MPI_Finalize` -/
  | finalize
  /-- `var = malloc(bytes)`; `ok` tells whether the result is non-NULL. -/
  | malloc (var : Buf) (bytes : Nat) (ok : Bool)
  /-- `free(var)`; `nonNull` tells whether the pointer passed is non-NULL. -/
  | free (var : Buf) (nonNull : Bool)
  /-- `printf` / `fprintf` of a diagnostic. -/
  | print (d : Diag)
  /-- `memset(var + off, byte, len)`. -/
  | memset (var : Buf) (off : Int) (byte : Int) (len : Nat)
  /-- `var[idx] = val` on an `int` buffer. -/
  | storeInt (var : Buf) (idx : Int) (val : Int)
  /-- `MPI_Send(var, count, MPI_CHAR, dest, tag, MPI_COMM_WORLD)` -/
  | send (var : Buf) (count dest tag : Int)
  /-- `MPI_Recv(var, count, MPI_CHAR, source, tag, MPI_COMM_WORLD, &status)` -/
  | recv (var : Buf) (count source tag : Int)
  /-- `MPI_Bcast(var, count, MPI_CHAR, root, MPI_COMM_WORLD)` -/
  | bcast (var : Buf) (count root : Int)
  /-- `MPI_Scatter(sendVar, count, MPI_CHAR, recvVar, count, MPI_CHAR, root, MPI_COMM_WORLD)` -/
  | scatter (sendVar recvVar : Buf) (count root : Int)
  /-- `MPI_Reduce(sendVar, recvVar, count, MPI_INT, MPI_SUM, root, MPI_COMM_WORLD)` -/
  | reduce (sendVar recvVar : Buf) (count root : Int)
  /-- `MPI_Alltoall(sendVar, count, MPI_CHAR, recvVar, count, MPI_CHAR, MPI_COMM_WORLD)` -/
  | alltoall (sendVar recvVar : Buf) (count : Int)
  deriving DecidableEq, Repr

/-- What a run of a program produces: its calls in order and its exit code. -/
structure Result where
  trace : List Event
  exit : Int
  deriving DecidableEq, Repr

/-- Whether a call is a communication call (point-to-point or collective). -/
def Event.isComm : Event → Bool
  | .send _ _ _ _ => true
  | .recv _ _ _ _ => true
  | .bcast _ _ _ => true
  | .scatter _ _ _ _ => true
  | .reduce _ _ _ _ => true
  | .alltoall _ _ _ => true
  | _ => false

/-- Whether a call is a `malloc`, successful or not. -/
def Event.isMalloc : Event → Bool
  | .malloc _ _ _ => true
  | _ => false

/-- Whether a call is a `malloc` that returned NULL. -/
def Event.isFailedMalloc : Event → Bool
  | .malloc _ _ false => true
  | _ => false

/-- Whether a call is a `free`. -/
def Event.isFree : Event → Bool
  | .free _ _ => true
  | _ => false

/-- Whether a call is an `MPI_Send`. -/
def Event.isSend : Event → Bool
  | .send _ _ _ _ => true
  | _ => false

/-- The communication calls of a trace, in order. -/
def commCalls (tr : List Event) : List Event := tr.filter Event.isComm

/-- The diagnostics of a trace, in order. -/
def diagnostics (tr : List Event) : List Diag :=
  tr.filterMap fun e => match e with
    | .print d => some d
    | _ => none

/-! ## Loops -/

/-- Iterations of `for (i = ...; i < hi; i++) body`, from the current value `i`,
with at most `fuel` iterations. -/
def forLoopFuel (hi : Int) (body : Int → List Event) : Nat → Int → List Event
  | 0, _ => []
  | fuel + 1, i => if i < hi then body i ++ forLoopFuel hi body fuel (i + 1) else []

/-- The calls of `for (i = lo; i < hi; i++) body`. The loop runs `hi - lo` times
when `lo < hi` and not at all otherwise, which is the fuel given. -/
def forLoop (lo hi : Int) (body : Int → List Event) : List Event :=
  forLoopFuel hi body (hi - lo).toNat lo

/-! ## The programs -/

/-- The value of `master_rank` / `root_rank` after argument handling:
`atoi(argv[1])` when `argc > 1`, else 0. -/
def roleOf (argv1 : Option Int) : Int :=
  match argv1 with
  | some v => v
  | none => 0

/-- Program `pingpongflex.c`, function `main`. -/
def pingpongflex_main (argv1 : Option Int) (rank size : Int) (alloc : Buf → Bool) : Result :=
  let master_rank := roleOf argv1
  if master_rank < 0 ∨ master_rank ≥ size then
    ⟨[Event.init]
      ++ (if rank = 0 then [Event.print (.invalidMaster master_rank (wrapInt32 (size - 1)))] else [])
      ++ [Event.finalize], 1⟩
  else if size < 2 then
    ⟨[Event.init] ++ (if rank = 0 then [Event.print .needTwo] else []) ++ [Event.finalize], 1⟩
  else if alloc .buffer = false then
    ⟨[Event.init, .malloc .buffer (toSizeT MAX_SIZE) false, .print (.allocFail rank), .finalize], 1⟩
  else
    ⟨[Event.init, .malloc .buffer (toSizeT MAX_SIZE) true,
        .memset .buffer 0 (toUChar (wrapInt32 (65 + rank))) (toSizeT MAX_SIZE)]
      ++ (if rank = master_rank then
            forLoop 0 IT fun _ =>
              forLoop 0 size fun dest =>
                if dest = master_rank then []
                else [Event.send .buffer msg_size dest 0, Event.recv .buffer msg_size dest 0]
          else
            forLoop 0 IT fun _ =>
              [Event.recv .buffer msg_size master_rank 0, Event.send .buffer msg_size master_rank 0])
      ++ [Event.free .buffer true, Event.finalize], 0⟩

/-- Program `pingpong.c`, function `main`. -/
def pingpong_main (rank size : Int) (alloc : Buf → Bool) : Result :=
  if size < 2 then
    ⟨[Event.init] ++ (if rank = 0 then [Event.print .needTwo] else []) ++ [Event.finalize], 1⟩
  else if alloc .buffer = false then
    ⟨[Event.init, .malloc .buffer (toSizeT MAX_SIZE) false, .print (.allocFail rank), .finalize], 1⟩
  else
    ⟨[Event.init, .malloc .buffer (toSizeT MAX_SIZE) true,
        .memset .buffer 0 (toUChar (wrapInt32 (65 + rank))) (toSizeT MAX_SIZE)]
      ++ (if rank = 0 then
            forLoop 0 IT fun _ =>
              forLoop 1 size fun dest =>
                [Event.send .buffer msg_size dest 0, Event.recv .buffer msg_size dest 0]
          else
            forLoop 0 IT fun _ =>
              forLoop 1 size fun source =>
                if rank = source then
                  [Event.recv .buffer msg_size 0 0, Event.send .buffer msg_size 0 0]
                else [])
      ++ [Event.free .buffer true, Event.finalize], 0⟩

/-- Program `bcastflex.c`, function `main`. -/
def bcastflex_main (argv1 : Option Int) (rank size : Int) (alloc : Buf → Bool) : Result :=
  let root_rank := roleOf argv1
  if root_rank < 0 ∨ root_rank ≥ size then
    ⟨[Event.init]
      ++ (if rank = 0 then [Event.print (.invalidRoot root_rank (wrapInt32 (size - 1)))] else [])
      ++ [Event.finalize], 1⟩
  else if alloc .buffer = false then
    ⟨[Event.init, .malloc .buffer (toSizeT MAX_SIZE) false, .print (.allocFail rank), .finalize], 1⟩
  else
    ⟨[Event.init, .malloc .buffer (toSizeT MAX_SIZE) true,
        .memset .buffer 0 (toUChar (wrapInt32 (65 + rank))) (toSizeT MAX_SIZE)]
      ++ (forLoop 0 IT fun _ => [Event.bcast .buffer msg_size root_rank])
      ++ [Event.free .buffer true, Event.finalize], 0⟩

/-- Program `bcast.c`, function `main`. -/
def bcast_main (rank : Int) (alloc : Buf → Bool) : Result :=
  if alloc .buffer = false then
    ⟨[Event.init, .malloc .buffer (toSizeT MAX_SIZE) false, .print (.allocFail rank), .finalize], 1⟩
  else
    ⟨[Event.init, .malloc .buffer (toSizeT MAX_SIZE) true,
        .memset .buffer 0 (toUChar (wrapInt32 (65 + rank))) (toSizeT MAX_SIZE)]
      ++ (forLoop 0 IT fun _ => [Event.bcast .buffer msg_size 0])
      ++ [Event.free .buffer true, Event.finalize], 0⟩

/-- The fill value of segment `i` in `all2all.c`: the `int` expression
`'A' + (rank + i) % 26`, where `%` truncates towards zero. -/
def all2all_fillValue (rank i : Int) : Int :=
  wrapInt32 (65 + Int.tmod (wrapInt32 (rank + i)) 26)

/-- Program `all2all.c`, function `main`. -/
def all2all_main (rank size : Int) (alloc : Buf → Bool) : Result :=
  let blk : Nat := toSizeT msg_size
  let total : Nat := mulSizeT blk (toSizeT size)
  let send_ok := alloc .send_buffer
  let recv_ok := alloc .recv_buffer
  if send_ok = false ∨ recv_ok = false then
    ⟨[Event.init, .malloc .send_buffer total send_ok, .malloc .recv_buffer total recv_ok]
      ++ (if rank = 0 then [Event.print (.allocFailBytes total)] else [])
      ++ [Event.free .send_buffer send_ok, Event.free .recv_buffer recv_ok, Event.finalize], 1⟩
  else
    ⟨[Event.init, .malloc .send_buffer total true, .malloc .recv_buffer total true]
      ++ (forLoop 0 size fun i =>
            [Event.memset .send_buffer (mulSizeT (toSizeT i) blk)
              (toUChar (all2all_fillValue rank i)) blk])
      ++ (forLoop 0 IT fun _ => [Event.alltoall .send_buffer .recv_buffer msg_size])
      ++ [Event.free .send_buffer true, Event.free .recv_buffer true, Event.finalize], 0⟩

/-- Program `scatter.c`, function `main`, with the initial value of the local
`msg_size` left as a parameter. -/
def scatter_run (msgSize : Int) (rank size : Int) (alloc : Buf → Bool) : Result :=
  if alloc .recv_buffer = false then
    ⟨[Event.init, .malloc .recv_buffer (toSizeT MAX_SIZE) false,
        .print (.allocFailVar .recv_buffer rank), .finalize], 1⟩
  else if rank = 0 ∧ alloc .send_buffer = false then
    ⟨[Event.init, .malloc .recv_buffer (toSizeT MAX_SIZE) true,
        .malloc .send_buffer (toSizeT (wrapInt32 (MAX_SIZE * size))) false,
        .print (.allocFailVarRoot .send_buffer), .free .recv_buffer true, .finalize], 1⟩
  else
    ⟨[Event.init, .malloc .recv_buffer (toSizeT MAX_SIZE) true]
      ++ (if rank = 0 then
            [Event.malloc .send_buffer (toSizeT (wrapInt32 (MAX_SIZE * size))) true]
            ++ forLoop 0 size fun i =>
                [Event.memset .send_buffer (wrapInt32 (i * MAX_SIZE))
                  (toUChar (wrapInt32 (65 + i))) (toSizeT MAX_SIZE)]
          else [])
      ++ (forLoop 0 IT fun _ => [Event.scatter .send_buffer .recv_buffer msgSize 0])
      ++ [Event.free .recv_buffer true]
      ++ (if rank = 0 then [Event.free .send_buffer true] else [])
      ++ [Event.finalize], 0⟩

/-- Program `scatter.c`, function `main`. -/
def scatter_main (rank size : Int) (alloc : Buf → Bool) : Result :=
  scatter_run msg_size rank size alloc

/-- The value of `elements` in `reduce.c` for a given `msg_size`:
`int elements = msg_size / sizeof(int); if (elements == 0) elements = 1;`
(the division is carried out in `size_t`, the result converted back to `int`). -/
def reduce_elements (msgSize : Int) : Int :=
  let elements := wrapInt32 ((toSizeT msgSize / sizeofInt : Nat) : Int)
  if elements = 0 then 1 else elements

/-- The value of `num_elements` in `reduce.c`: `MAX_SIZE / sizeof(int)`. -/
def reduce_num_elements : Int := wrapInt32 ((toSizeT MAX_SIZE / sizeofInt : Nat) : Int)

/-- Program `reduce.c`, function `main`, with the initial value of the local
`msg_size` left as a parameter. -/
def reduce_run (msgSize : Int) (rank : Int) (alloc : Buf → Bool) : Result :=
  if alloc .send_buffer = false then
    ⟨[Event.init, .malloc .send_buffer (toSizeT MAX_SIZE) false,
        .print (.allocFailVar .send_buffer rank), .finalize], 1⟩
  else if rank = 0 ∧ alloc .recv_buffer = false then
    ⟨[Event.init, .malloc .send_buffer (toSizeT MAX_SIZE) true,
        .malloc .recv_buffer (toSizeT MAX_SIZE) false,
        .print (.allocFailVarRoot .recv_buffer), .free .send_buffer true, .finalize], 1⟩
  else
    ⟨[Event.init, .malloc .send_buffer (toSizeT MAX_SIZE) true]
      ++ (if rank = 0 then [Event.malloc .recv_buffer (toSizeT MAX_SIZE) true] else [])
      ++ (forLoop 0 reduce_num_elements fun i =>
            [Event.storeInt .send_buffer i (wrapInt32 (rank + 1))])
      ++ (forLoop 0 IT fun _ =>
            [Event.reduce .send_buffer .recv_buffer (reduce_elements msgSize) 0])
      ++ [Event.free .send_buffer true]
      ++ (if rank = 0 then [Event.free .recv_buffer true] else [])
      ++ [Event.finalize], 0⟩

/-- Program `reduce.c`, function `main`. -/
def reduce_main (rank : Int) (alloc : Buf → Bool) : Result :=
  reduce_run msg_size rank alloc

/-- The seven benchmark programs. -/
inductive Program where
  | all2all
  | bcast
  | bcastflex
  | pingpong
  | pingpongflex
  | reduce
  | scatter
  deriving DecidableEq, Repr

/-- What a process receives from its environment. -/
structure Input where
  /-- Value of `atoi(argv[1])` when an argument is given. -/
  argv1 : Option Int
  /-- Result of `MPI_Comm_rank`. -/
  rank : Int
  /-- Result of `MPI_Comm_size`. -/
  size : Int
  /-- Outcome of the `malloc` assigned to each pointer variable. -/
  alloc : Buf → Bool

/-- Run of a program on an input. -/
def run : Program → Input → Result
  | .all2all, x => all2all_main x.rank x.size x.alloc
  | .bcast, x => bcast_main x.rank x.alloc
  | .bcastflex, x => bcastflex_main x.argv1 x.rank x.size x.alloc
  | .pingpong, x => pingpong_main x.rank x.size x.alloc
  | .pingpongflex, x => pingpongflex_main x.argv1 x.rank x.size x.alloc
  | .reduce, x => reduce_main x.rank x.alloc
  | .scatter, x => scatter_main x.rank x.size x.alloc

/-! ## Derived observations on a run -/

/-- The peer a point-to-point call addresses. -/
def Event.peer : Event → Option Int
  | .send _ _ dest _ => some dest
  | .recv _ _ source _ => some source
  | _ => none

/-- A run that ended with exit code 1 having called neither `malloc` nor any
communication primitive. -/
def rejectedEarly (r : Result) : Prop :=
  r.exit = 1 ∧ (∀ e ∈ r.trace, e.isMalloc = false) ∧ commCalls r.trace = []

instance (r : Result) : Decidable (rejectedEarly r) := by
  unfold rejectedEarly
  infer_instance

/-- One round of the hub as the specification describes it: for each destination in
ascending order other than the hub itself, a send followed by a receive. -/
def hubRound (n : Nat) (hub : Int) : List Event :=
  ((List.range n).filter fun (d : Nat) => decide ((d : Int) ≠ hub)).flatMap fun (d : Nat) =>
    [Event.send .buffer msg_size (d : Int) 0, Event.recv .buffer msg_size (d : Int) 0]

/-- One round of a non-hub process: a receive from the hub followed by a send to it. -/
def peerRound (hub : Int) : List Event :=
  [Event.recv .buffer msg_size hub 0, Event.send .buffer msg_size hub 0]

/-! ## Heap discipline -/

/-- Effect of one call on the set of live buffers; `none` when the call releases a buffer
that is not live, or allocates into a variable whose buffer is still live. `free(NULL)`
and a failed `malloc` leave the set unchanged. -/
def heapStep (live : List Buf) : Event → Option (List Buf)
  | .malloc v _ true => if v ∈ live then none else some (v :: live)
  | .free v true => if v ∈ live then some (live.erase v) else none
  | _ => some live

/-- Effect of a whole trace on the set of live buffers. -/
def heapRun : List Event → List Buf → Option (List Buf)
  | [], live => some live
  | e :: es, live =>
    match heapStep live e with
    | some l => heapRun es l
    | none => none

/-- Number of successful allocations into a variable. -/
def allocCount (tr : List Event) (v : Buf) : Nat :=
  tr.countP fun e => match e with
    | .malloc w _ true => decide (w = v)
    | _ => false

/-- Number of releases of the buffer of a variable (calls of `free` on a non-NULL pointer). -/
def freeCount (tr : List Event) (v : Buf) : Nat :=
  tr.countP fun e => match e with
    | .free w true => decide (w = v)
    | _ => false

/-! ## Memory written by a process -/

/-- Content of the buffers of one process: the value of each cell of each buffer (a byte
of a `char` buffer by offset, an element of an `int` buffer by index), `none` where the
process has not written. -/
abbrev Mem := Buf → Int → Option Int

/-- Effect of one call on the content of the process's buffers (local writes only). -/
def Event.store (e : Event) (m : Mem) : Mem :=
  match e with
  | .memset var off byte len =>
    fun v o => if v = var ∧ off ≤ o ∧ o < off + (len : Int) then some byte else m v o
  | .storeInt var idx val =>
    fun v o => if v = var ∧ o = idx then some val else m v o
  | _ => m

/-- Content of the buffers after the local writes of a trace. -/
def memAfter (tr : List Event) : Mem :=
  tr.foldl (fun m e => e.store m) (fun _ _ => none)

/-- Standard semantics of `MPI_Scatter` with per-destination count `w`: the byte at
position `t` of what destination `j` receives is the byte at offset `j * w + t` of the
root's send buffer. -/
def scatterReceived (rootSend : Int → Option Int) (w j t : Int) : Option Int :=
  rootSend (j * w + t)

/-- Semantics of `MPI_Reduce` with `MPI_SUM` on `MPI_INT` for one slot: the `int` sum over
ranks `0 .. n-1` of the value each rank contributes. -/
def reduceSum (contrib : Nat → Option Int) : Nat → Option Int
  | 0 => some 0
  | n + 1 =>
    match reduceSum contrib n, contrib n with
    | some a, some b => some (wrapInt32 (a + b))
    | _, _ => none

/-! ## Byte ranges accessed -/

/-- A range of bytes of a buffer: first offset and length. -/
structure Access where
  var : Buf
  off : Int
  len : Int
  deriving DecidableEq, Repr

/-- The byte ranges a call reads or writes on the process of the given rank in a group of
the given size: `count` elements times the element width, times the group size on a
process that holds one segment per destination. -/
def Event.accesses (rank size : Int) : Event → List Access
  | .memset var off _ len => [⟨var, off, (len : Int)⟩]
  | .storeInt var idx _ => [⟨var, idx * (sizeofInt : Int), (sizeofInt : Int)⟩]
  | .send var count _ _ => [⟨var, 0, count⟩]
  | .recv var count _ _ => [⟨var, 0, count⟩]
  | .bcast var count _ => [⟨var, 0, count⟩]
  | .scatter sv rv count root =>
    (if rank = root then [⟨sv, 0, count * size⟩] else []) ++ [⟨rv, 0, count⟩]
  | .reduce sv rv count root =>
    [⟨sv, 0, count * (sizeofInt : Int)⟩]
      ++ (if rank = root then [⟨rv, 0, count * (sizeofInt : Int)⟩] else [])
  | .alltoall sv rv count => [⟨sv, 0, count * size⟩, ⟨rv, 0, count * size⟩]
  | _ => []

/-- The capacity requested for the buffer of a variable: the argument of its successful
`malloc`. -/
def capacityOf (tr : List Event) (v : Buf) : Option Nat :=
  tr.findSome? fun e => match e with
    | .malloc w bytes true => if w = v then some bytes else none
    | _ => none

/-- Whether a byte range lies inside the capacity requested for its buffer. -/
def Access.inBounds (tr : List Event) (a : Access) : Bool :=
  match capacityOf tr a.var with
  | some cap => decide (0 ≤ a.off ∧ 0 ≤ a.len ∧ a.off + a.len ≤ (cap : Int))
  | none => false

/-- All byte ranges accessed by the calls of a trace. -/
def accessesOf (rank size : Int) (tr : List Event) : List Access :=
  tr.flatMap (Event.accesses rank size)

/-- Whether a call is neither a `malloc`, nor a `free`, nor a diagnostic: a local write
or a communication call. -/
def Event.isQuiet : Event → Bool
  | .memset _ _ _ _ => true
  | .storeInt _ _ _ => true
  | .send _ _ _ _ => true
  | .recv _ _ _ _ => true
  | .bcast _ _ _ => true
  | .scatter _ _ _ _ => true
  | .reduce _ _ _ _ => true
  | .alltoall _ _ _ => true
  | _ => false

/-- A stretch of calls without `malloc`, `free` or diagnostic. -/
def quiet (l : List Event) : Prop := ∀ e ∈ l, e.isQuiet = true

instance (l : List Event) : Decidable (quiet l) := by
  unfold quiet
  infer_instance

/-- Content of the buffers after the local writes of a trace, starting from given
content. -/
def applyStores (tr : List Event) (m : Mem) : Mem :=
  tr.foldl (fun m e => e.store m) m

/-- Whether a call writes a buffer locally. -/
def Event.isWrite : Event → Bool
  | .memset _ _ _ _ => true
  | .storeInt _ _ _ => true
  | _ => false

/-- Every byte range accessed by the calls of a trace lies inside the capacity requested
for its buffer. -/
def allInBounds (rank size : Int) (tr : List Event) : Prop :=
  ∀ a ∈ accessesOf rank size tr, a.inBounds tr = true

instance (rank size : Int) (tr : List Event) : Decidable (allInBounds rank size tr) := by
  unfold allInBounds
  infer_instance

/-- The byte ranges of one call fit the capacities given by `cap`. -/
def Event.fits (cap : Buf → Option Nat) (rank size : Int) (e : Event) : Prop :=
  ∀ a ∈ e.accesses rank size,
    ∃ c, cap a.var = some c ∧ 0 ≤ a.off ∧ 0 ≤ a.len ∧ a.off + a.len ≤ (c : Int)

/-! ## Properties of a run used in the statements -/

/-- What every program but `all2all` does on a failed allocation: exit code 1, no
communication call, one diagnostic naming the process's own rank. -/
def reportsOwnFailure (r : Result) (rank : Int) : Prop :=
  r.exit = 1 ∧ commCalls r.trace = [] ∧ ∃ d ∈ diagnostics r.trace, d.identity = some rank

instance (r : Result) (rank : Int) : Decidable (reportsOwnFailure r rank) := by
  unfold reportsOwnFailure
  infer_instance

/-- The heap discipline of a run: replaying its trace from an empty heap never releases
a buffer that is not live, never allocates over a live buffer, and ends with no live
buffer; and a run without `malloc` has no `free`. -/
def heapClean (r : Result) : Prop :=
  heapRun r.trace [] = some []
    ∧ ((∀ e ∈ r.trace, e.isMalloc = false) → ∀ e ∈ r.trace, e.isFree = false)

instance (r : Result) : Decidable (heapClean r) := by
  unfold heapClean
  infer_instance

/-- The byte ranges of a call are accesses to `buffer` from offset 0 of at most
`MAX_SIZE` bytes. -/
def Event.smallOnBuffer (rank size : Int) (e : Event) : Prop :=
  ∀ a ∈ e.accesses rank size, a.var = Buf.buffer ∧ a.off = 0 ∧ 0 ≤ a.len ∧ a.len ≤ 1048576

/-! ## Facts about loops -/

theorem forLoopFuel_eq (hi : Int) (body : Int → List Event) :
    ∀ (fuel : Nat) (i : Int), (hi - i).toNat ≤ fuel →
      forLoopFuel hi body fuel i
        = (List.range (hi - i).toNat).flatMap fun k => body (i + (k : Int)) := by
  intro fuel
  induction fuel with
  | zero =>
    intro i h
    have h0 : (hi - i).toNat = 0 := Nat.le_zero.mp h
    simp [forLoopFuel, h0]
  | succ n ih =>
    intro i h
    unfold forLoopFuel
    by_cases hlt : i < hi
    · have hn : (hi - i).toNat = (hi - (i + 1)).toNat + 1 := by omega
      have hle : (hi - (i + 1)).toNat ≤ n := by omega
      rw [if_pos hlt, ih (i + 1) hle, hn, List.range_succ_eq_map]
      simp only [List.flatMap_cons, List.flatMap_map, Nat.cast_zero, add_zero]
      congr 1
      apply congrArg
      funext k
      simp only [Function.comp, Nat.succ_eq_add_one, Nat.cast_add, Nat.cast_one]
      congr 1
      ring
    · have h0 : (hi - i).toNat = 0 := by omega
      simp [hlt, h0]

theorem forLoop_eq_flatMap (lo hi : Int) (body : Int → List Event) :
    forLoop lo hi body = (List.range (hi - lo).toNat).flatMap fun k => body (lo + (k : Int)) :=
  forLoopFuel_eq hi body _ lo (le_refl _)

theorem forLoop_nil {lo hi : Int} (h : hi ≤ lo) (body : Int → List Event) :
    forLoop lo hi body = [] := by
  have h0 : (hi - lo).toNat = 0 := by omega
  simp [forLoop_eq_flatMap, h0]

theorem forLoop_step {lo hi : Int} (h : lo < hi) (body : Int → List Event) :
    forLoop lo hi body = body lo ++ forLoop (lo + 1) hi body := by
  have hn : (hi - lo).toNat = (hi - (lo + 1)).toNat + 1 := by omega
  unfold forLoop
  rw [hn]
  simp [forLoopFuel, h]

theorem forLoop_snoc {lo hi : Int} (h : lo ≤ hi) (body : Int → List Event) :
    forLoop lo (hi + 1) body = forLoop lo hi body ++ body hi := by
  have hn : (hi + 1 - lo).toNat = (hi - lo).toNat + 1 := by omega
  have hk : lo + (((hi - lo).toNat : Nat) : Int) = hi := by omega
  rw [forLoop_eq_flatMap, forLoop_eq_flatMap, hn, List.range_succ]
  simp only [List.flatMap_append, List.flatMap_cons, List.flatMap_nil, List.append_nil, hk]

theorem mem_forLoop {lo hi : Int} {body : Int → List Event} {e : Event} :
    e ∈ forLoop lo hi body ↔ ∃ i, lo ≤ i ∧ i < hi ∧ e ∈ body i := by
  rw [forLoop_eq_flatMap, List.mem_flatMap]
  constructor
  · rintro ⟨k, hk, he⟩
    have hk2 := List.mem_range.mp hk
    exact ⟨lo + (k : Int), by omega, by omega, he⟩
  · rintro ⟨i, h1, h2, he⟩
    refine ⟨(i - lo).toNat, List.mem_range.mpr (by omega), ?_⟩
    have : lo + (((i - lo).toNat : Nat) : Int) = i := by omega
    rw [this]
    exact he

theorem forLoop_const (lo hi : Int) (l : List Event) :
    forLoop lo hi (fun _ => l) = (List.replicate (hi - lo).toNat l).flatten := by
  rw [forLoop_eq_flatMap]
  induction (hi - lo).toNat with
  | zero => simp
  | succ n ih =>
    rw [List.range_succ, List.flatMap_append, ih, List.replicate_succ']
    simp

/-! ## Facts about traces -/

theorem commCalls_append (a b : List Event) : commCalls (a ++ b) = commCalls a ++ commCalls b := by
  simp [commCalls]

theorem commCalls_eq_self {l : List Event} (h : ∀ e ∈ l, e.isComm = true) : commCalls l = l := by
  unfold commCalls
  exact List.filter_eq_self.mpr h

theorem commCalls_eq_nil {l : List Event} (h : ∀ e ∈ l, e.isComm = false) : commCalls l = [] := by
  unfold commCalls
  rw [List.filter_eq_nil_iff]
  intro e he
  simp [h e he]

theorem diagnostics_append (a b : List Event) :
    diagnostics (a ++ b) = diagnostics a ++ diagnostics b := by
  simp [diagnostics]

theorem diagnostics_eq_nil {l : List Event} (h : ∀ e ∈ l, ∀ d, e ≠ Event.print d) :
    diagnostics l = [] := by
  unfold diagnostics
  rw [List.filterMap_eq_nil_iff]
  intro e he
  cases e <;> first | rfl | exact absurd rfl (h _ he _)

/-- The inner loop of the parametric hub performs the round of the specification. -/
theorem hubLoop_eq_hubRound (n : Nat) (hub : Int) :
    (forLoop 0 (n : Int) fun dest =>
        if dest = hub then []
        else [Event.send .buffer msg_size dest 0, Event.recv .buffer msg_size dest 0])
      = hubRound n hub := by
  have key : ∀ l : List Nat,
      (l.flatMap fun (k : Nat) =>
        if (0 : Int) + (k : Int) = hub then []
        else [Event.send .buffer msg_size ((0 : Int) + (k : Int)) 0,
              Event.recv .buffer msg_size ((0 : Int) + (k : Int)) 0])
      = (l.filter fun (d : Nat) => decide ((d : Int) ≠ hub)).flatMap fun (d : Nat) =>
          [Event.send .buffer msg_size (d : Int) 0, Event.recv .buffer msg_size (d : Int) 0] := by
    intro l
    induction l with
    | nil => rfl
    | cons d ds ih =>
      rw [List.flatMap_cons, ih, List.filter_cons]
      by_cases hd : (d : Int) = hub
      · simp [hd]
      · simp [hd]
  have hn : ((n : Int) - 0).toNat = n := by omega
  rw [forLoop_eq_flatMap, hn]
  exact key _

theorem hubRound_isComm (n : Nat) (hub : Int) : ∀ e ∈ hubRound n hub, e.isComm = true := by
  intro e he
  unfold hubRound at he
  rw [List.mem_flatMap] at he
  obtain ⟨d, -, hd⟩ := he
  simp at hd
  rcases hd with rfl | rfl <;> rfl

theorem hubRound_peer (n : Nat) (hub : Int) : ∀ e ∈ hubRound n hub, e.peer ≠ some hub := by
  intro e he
  unfold hubRound at he
  rw [List.mem_flatMap] at he
  obtain ⟨d, hd1, hd⟩ := he
  have hne : (d : Int) ≠ hub := by simpa using (List.mem_filter.mp hd1).2
  simp at hd
  rcases hd with rfl | rfl <;> simpa [Event.peer] using hne

theorem length_filter_ne_range (r : Nat) :
    ∀ n : Nat, r < n → ((List.range n).filter fun d => decide (d ≠ r)).length = n - 1 := by
  intro n
  induction n with
  | zero => intro h; omega
  | succ n ih =>
    intro h
    rw [List.range_succ, List.filter_append, List.length_append]
    by_cases hr : r = n
    · subst hr
      have hself : ((List.range r).filter fun d => decide (d ≠ r)) = List.range r := by
        apply List.filter_eq_self.mpr
        intro a ha
        have := List.mem_range.mp ha
        simp
        omega
      rw [hself]
      simp
    · have hlt : r < n := by omega
      have hn : ¬ n = r := fun h => hr h.symm
      rw [ih hlt]
      simp [List.filter_cons, hn]
      omega

theorem countP_flatten_replicate (p : Event → Bool) (k : Nat) (l : List Event) :
    List.countP p (List.replicate k l).flatten = k * List.countP p l := by
  induction k with
  | zero => simp
  | succ k ih =>
    rw [List.replicate_succ, List.flatten_cons, List.countP_append, ih]
    ring

theorem mem_flatten_replicate {k : Nat} {l : List Event} {e : Event}
    (h : e ∈ (List.replicate k l).flatten) : e ∈ l := by
  rw [List.mem_flatten] at h
  obtain ⟨l2, hl2, he⟩ := h
  rw [List.eq_of_mem_replicate hl2] at he
  exact he

theorem countP_isSend_hubRound {n r : Nat} (h : r < n) :
    List.countP Event.isSend (hubRound n (r : Int)) = n - 1 := by
  have key : ∀ l : List Nat,
      List.countP Event.isSend
        (l.flatMap fun d =>
          [Event.send .buffer msg_size (d : Int) 0, Event.recv .buffer msg_size (d : Int) 0])
        = l.length := by
    intro l
    induction l with
    | nil => rfl
    | cons d ds ih =>
      rw [List.flatMap_cons, List.countP_append, ih]
      simp [List.countP_cons, Event.isSend]
      omega
  unfold hubRound
  rw [key]
  have := length_filter_ne_range r n h
  rw [← this]
  congr 1
  apply List.filter_congr
  intro x _
  simp

theorem count_send_hubRound {n r p : Nat} (hp : p < n) (hpr : p ≠ r) :
    List.count (Event.send .buffer msg_size (p : Int) 0) (hubRound n (r : Int)) = 1 := by
  have key : ∀ l : List Nat, l.Nodup →
      List.count (Event.send .buffer msg_size (p : Int) 0)
        (l.flatMap fun d =>
          [Event.send .buffer msg_size (d : Int) 0, Event.recv .buffer msg_size (d : Int) 0])
        = if p ∈ l then 1 else 0 := by
    intro l
    induction l with
    | nil => intro _; rfl
    | cons d ds ih =>
      intro hnd
      rw [List.nodup_cons] at hnd
      rw [List.flatMap_cons, List.count_append, ih hnd.2]
      by_cases hdp : d = p
      · subst hdp
        simp [List.count_cons, hnd.1]
      · have hdp2 : ¬ p = d := fun h => hdp h.symm
        simp [List.count_cons, hdp, hdp2]
  unfold hubRound
  rw [key _ ((List.nodup_range n).filter _)]
  have : p ∈ (List.range n).filter fun (d : Nat) => decide ((d : Int) ≠ (r : Int)) := by
    rw [List.mem_filter]
    exact ⟨List.mem_range.mpr hp, by simpa using hpr⟩
  rw [if_pos this]

theorem count_flatten_replicate (e : Event) (k : Nat) (l : List Event) :
    List.count e (List.replicate k l).flatten = k * List.count e l := by
  unfold List.count
  exact countP_flatten_replicate _ k l

/-! ## The loops of the programs neither allocate, release nor print -/

theorem forLoop_forall {P : Event → Prop} {lo hi : Int} {body : Int → List Event}
    (h : ∀ i, lo ≤ i → i < hi → ∀ e ∈ body i, P e) : ∀ e ∈ forLoop lo hi body, P e := by
  intro e he
  obtain ⟨i, h1, h2, hi⟩ := mem_forLoop.mp he
  exact h i h1 h2 e hi

theorem quiet_forLoop {lo hi : Int} {body : Int → List Event} (h : ∀ i, quiet (body i)) :
    quiet (forLoop lo hi body) :=
  forLoop_forall fun i _ _ => h i

theorem quiet_nil : quiet [] := by
  intro e he
  cases he

theorem quiet_cons {e : Event} {l : List Event} (he : e.isQuiet = true) (hl : quiet l) :
    quiet (e :: l) := by
  intro a ha
  rcases List.mem_cons.mp ha with rfl | h
  · exact he
  · exact hl a h

theorem quiet_append {a b : List Event} (ha : quiet a) (hb : quiet b) : quiet (a ++ b) := by
  intro e he
  rcases List.mem_append.mp he with h | h
  · exact ha e h
  · exact hb e h

theorem quiet_ite {c : Prop} [Decidable c] {a b : List Event} (ha : quiet a) (hb : quiet b) :
    quiet (if c then a else b) := by
  split_ifs
  · exact ha
  · exact hb

theorem quiet_pair {a b : Event} (ha : a.isQuiet = true) (hb : b.isQuiet = true) :
    quiet [a, b] :=
  quiet_cons ha (quiet_cons hb quiet_nil)

theorem quiet_single {a : Event} (ha : a.isQuiet = true) : quiet [a] :=
  quiet_cons ha quiet_nil

theorem quiet_not_failedMalloc {l : List Event} (h : quiet l) :
    ∀ e ∈ l, e.isFailedMalloc = false := by
  intro e he
  have := h e he
  cases e <;> first | rfl | simp [Event.isQuiet] at this

theorem quiet_not_malloc {l : List Event} (h : quiet l) : ∀ e ∈ l, e.isMalloc = false := by
  intro e he
  have := h e he
  cases e <;> first | rfl | simp [Event.isQuiet] at this

theorem quiet_not_free {l : List Event} (h : quiet l) : ∀ e ∈ l, e.isFree = false := by
  intro e he
  have := h e he
  cases e <;> first | rfl | simp [Event.isQuiet] at this

theorem quiet_diagnostics {l : List Event} (h : quiet l) : diagnostics l = [] := by
  apply diagnostics_eq_nil
  intro e he d hd
  have := h e he
  rw [hd] at this
  simp [Event.isQuiet] at this

theorem heapStep_quiet {e : Event} (h : e.isQuiet = true) (live : List Buf) :
    heapStep live e = some live := by
  cases e <;> first | rfl | simp [Event.isQuiet] at h

theorem heapRun_quiet {l : List Event} (h : quiet l) (live : List Buf) :
    heapRun l live = some live := by
  induction l with
  | nil => rfl
  | cons e es ih =>
    have he : e.isQuiet = true := h e (List.mem_cons_self _ _)
    have hes : quiet es := fun a ha => h a (List.mem_cons_of_mem _ ha)
    simp only [heapRun, heapStep_quiet he, ih hes]

theorem heapRun_append (a b : List Event) (live : List Buf) :
    heapRun (a ++ b) live = (heapRun a live).bind (heapRun b) := by
  induction a generalizing live with
  | nil => rfl
  | cons e es ih =>
    simp only [List.cons_append, heapRun]
    cases heapStep live e with
    | none => rfl
    | some l => exact ih l

theorem heapRun_nil (live : List Buf) : heapRun [] live = some live := rfl

theorem heapRun_cons (e : Event) (es : List Event) (live : List Buf) :
    heapRun (e :: es) live = (heapStep live e).bind (heapRun es) := by
  simp only [heapRun]
  cases heapStep live e <;> rfl

theorem heapRun_quiet_append {l : List Event} (h : quiet l) (rest : List Event)
    (live : List Buf) : heapRun (l ++ rest) live = heapRun rest live := by
  rw [heapRun_append, heapRun_quiet h]
  rfl

/-- The timed loop of the parametric hub. -/
theorem quiet_hubFlex (size m : Int) :
    quiet (forLoop 0 IT fun _ =>
      forLoop 0 size fun dest =>
        if dest = m then []
        else [Event.send .buffer msg_size dest 0, Event.recv .buffer msg_size dest 0]) :=
  quiet_forLoop fun _ => quiet_forLoop fun _ => quiet_ite quiet_nil (quiet_pair rfl rfl)

/-- The timed loop of a parametric peer. -/
theorem quiet_peerFlex (m : Int) :
    quiet (forLoop 0 IT fun _ =>
      [Event.recv .buffer msg_size m 0, Event.send .buffer msg_size m 0]) :=
  quiet_forLoop fun _ => quiet_pair rfl rfl

/-- The timed loop of the fixed-root hub. -/
theorem quiet_hubFixed (size : Int) :
    quiet (forLoop 0 IT fun _ =>
      forLoop 1 size fun dest =>
        [Event.send .buffer msg_size dest 0, Event.recv .buffer msg_size dest 0]) :=
  quiet_forLoop fun _ => quiet_forLoop fun _ => quiet_pair rfl rfl

/-- The timed loop of a fixed-root worker. -/
theorem quiet_workerFixed (rank size : Int) :
    quiet (forLoop 0 IT fun _ =>
      forLoop 1 size fun source =>
        if rank = source then
          [Event.recv .buffer msg_size 0 0, Event.send .buffer msg_size 0 0]
        else []) :=
  quiet_forLoop fun _ => quiet_forLoop fun _ => quiet_ite (quiet_pair rfl rfl) quiet_nil

/-- A timed loop of one collective call per iteration. -/
theorem quiet_timed {e : Event} (h : e.isQuiet = true) : quiet (forLoop 0 IT fun _ => [e]) :=
  quiet_forLoop fun _ => quiet_single h

/-- A fill loop of one local write per iteration. -/
theorem quiet_fill {lo hi : Int} {f : Int → Event} (h : ∀ i, (f i).isQuiet = true) :
    quiet (forLoop lo hi fun i => [f i]) :=
  quiet_forLoop fun i => quiet_single (h i)

/-- The timed loop of the broadcast programs. -/
theorem quiet_bcastLoop (root : Int) :
    quiet (forLoop 0 IT fun _ => [Event.bcast .buffer msg_size root]) :=
  quiet_timed rfl

/-- The timed loop of `scatter`. -/
theorem quiet_scatterLoop (msgSize : Int) :
    quiet (forLoop 0 IT fun _ => [Event.scatter .send_buffer .recv_buffer msgSize 0]) :=
  quiet_timed rfl

/-- The fill loop of `scatter`. -/
theorem quiet_scatterFill (size : Int) :
    quiet (forLoop 0 size fun i =>
      [Event.memset .send_buffer (wrapInt32 (i * MAX_SIZE)) (toUChar (wrapInt32 (65 + i)))
        (toSizeT MAX_SIZE)]) :=
  quiet_forLoop fun _ => quiet_single rfl

/-- The timed loop of `reduce`. -/
theorem quiet_reduceLoop (msgSize : Int) :
    quiet (forLoop 0 IT fun _ =>
      [Event.reduce .send_buffer .recv_buffer (reduce_elements msgSize) 0]) :=
  quiet_timed rfl

/-- The fill loop of `reduce`. -/
theorem quiet_reduceFill (rank : Int) :
    quiet (forLoop 0 reduce_num_elements fun i =>
      [Event.storeInt .send_buffer i (wrapInt32 (rank + 1))]) :=
  quiet_forLoop fun _ => quiet_single rfl

/-- The timed loop of `all2all`. -/
theorem quiet_alltoallLoop :
    quiet (forLoop 0 IT fun _ => [Event.alltoall .send_buffer .recv_buffer msg_size]) :=
  quiet_timed rfl

/-- The fill loop of `all2all`. -/
theorem quiet_all2allFill (rank size : Int) :
    quiet (forLoop 0 size fun i =>
      [Event.memset .send_buffer (mulSizeT (toSizeT i) (toSizeT msg_size))
        (toUChar (all2all_fillValue rank i)) (toSizeT msg_size)]) :=
  quiet_forLoop fun _ => quiet_single rfl

/-! ## Facts about machine integers -/

theorem wrapInt32_of_range (x : Int) (h1 : -2147483648 ≤ x) (h2 : x < 2147483648) :
    wrapInt32 x = x := by
  unfold wrapInt32
  omega

theorem toSizeT_of_range (x : Int) (h1 : 0 ≤ x) (h2 : x < 18446744073709551616) :
    ((toSizeT x : Nat) : Int) = x := by
  unfold toSizeT
  omega

theorem toUChar_of_range (x : Int) (h1 : 0 ≤ x) (h2 : x < 256) : toUChar x = x := by
  unfold toUChar
  omega

theorem toUChar_wrapInt32 (x : Int) : toUChar (wrapInt32 x) = toUChar x := by
  unfold toUChar wrapInt32
  omega

theorem toSizeT_msg_size : toSizeT msg_size = 1024 := by decide

theorem toSizeT_MAX_SIZE : toSizeT MAX_SIZE = 1048576 := by decide

theorem reduce_num_elements_eq : reduce_num_elements = 262144 := by decide

/-- The offset `(size_t)i * blk` of segment `i` in `all2all.c`, for an index in the range
of `int`. -/
theorem all2all_offset {i : Int} (h1 : 0 ≤ i) (h2 : i ≤ INT_MAX) :
    ((mulSizeT (toSizeT i) (toSizeT msg_size) : Nat) : Int) = i * 1024 := by
  have hi : ((toSizeT i : Nat) : Int) = i := toSizeT_of_range i h1 (by unfold INT_MAX at h2; omega)
  unfold INT_MAX at h2
  rw [toSizeT_msg_size]
  unfold mulSizeT
  push_cast
  rw [hi]
  omega

/-! ## Configuration validation -/

theorem pingpongflex_rejectedEarly_iff (argv1 : Option Int) (rank size : Int)
    (alloc : Buf → Bool) :
    rejectedEarly (pingpongflex_main argv1 rank size alloc)
      ↔ roleOf argv1 < 0 ∨ roleOf argv1 ≥ size ∨ size < 2 := by
  unfold pingpongflex_main rejectedEarly
  by_cases h1 : roleOf argv1 < 0 ∨ roleOf argv1 ≥ size
  · have hr : roleOf argv1 < 0 ∨ roleOf argv1 ≥ size ∨ size < 2 := by
      rcases h1 with h | h
      · exact Or.inl h
      · exact Or.inr (Or.inl h)
    simp only [h1, if_true, hr, iff_true]
    by_cases h0 : rank = 0 <;> simp [h0, commCalls, Event.isMalloc, Event.isComm]
  · by_cases h2 : size < 2
    · have hr : roleOf argv1 < 0 ∨ roleOf argv1 ≥ size ∨ size < 2 := Or.inr (Or.inr h2)
      simp only [h1, if_false, h2, if_true, hr, iff_true]
      by_cases h0 : rank = 0 <;> simp [h0, commCalls, Event.isMalloc, Event.isComm]
    · have hr : ¬ (roleOf argv1 < 0 ∨ roleOf argv1 ≥ size ∨ size < 2) := by
        rintro (h | h | h)
        · exact h1 (Or.inl h)
        · exact h1 (Or.inr h)
        · exact h2 h
      simp only [h1, if_false, h2, hr, iff_false]
      by_cases h3 : alloc .buffer = false
      · simp [h3, Event.isMalloc]
        omega
      · simp [h3, Event.isMalloc]
        omega

theorem bcastflex_rejectedEarly_iff (argv1 : Option Int) (rank size : Int)
    (alloc : Buf → Bool) :
    rejectedEarly (bcastflex_main argv1 rank size alloc)
      ↔ roleOf argv1 < 0 ∨ roleOf argv1 ≥ size := by
  unfold bcastflex_main rejectedEarly
  by_cases h1 : roleOf argv1 < 0 ∨ roleOf argv1 ≥ size
  · simp only [h1, if_true, iff_true]
    by_cases h0 : rank = 0 <;> simp [h0, commCalls, Event.isMalloc, Event.isComm]
  · simp only [h1, if_false, iff_false]
    by_cases h3 : alloc .buffer = false
    · simp [h3, Event.isMalloc]
    · simp [h3, Event.isMalloc]

/-! ## Normal completion -/

theorem flatten_replicate_singleton (k : Nat) (a : Event) :
    (List.replicate k [a]).flatten = List.replicate k a := by
  induction k with
  | zero => rfl
  | succ k ih => simp [List.replicate_succ, ih]

theorem IT_toNat : (IT - 0).toNat = 100 := by decide

theorem bcastflex_main_ok {argv1 : Option Int} {rank size : Int} {alloc : Buf → Bool}
    (h0 : 0 ≤ roleOf argv1) (h1 : roleOf argv1 < size) (hok : alloc .buffer = true) :
    bcastflex_main argv1 rank size alloc
      = ⟨[Event.init, .malloc .buffer (toSizeT MAX_SIZE) true,
            .memset .buffer 0 (toUChar (wrapInt32 (65 + rank))) (toSizeT MAX_SIZE)]
          ++ List.replicate 100 (Event.bcast .buffer msg_size (roleOf argv1))
          ++ [Event.free .buffer true, Event.finalize], 0⟩ := by
  have hv : ¬ (roleOf argv1 < 0 ∨ roleOf argv1 ≥ size) := by omega
  unfold bcastflex_main
  simp only [hv, if_false, hok, Bool.true_eq_false, forLoop_const, IT_toNat,
    flatten_replicate_singleton]

theorem pingpongflex_main_ok {argv1 : Option Int} {rank : Int} {n : Nat} {alloc : Buf → Bool}
    (h0 : 0 ≤ roleOf argv1) (h1 : roleOf argv1 < (n : Int)) (h2 : 2 ≤ n)
    (hok : alloc .buffer = true) :
    pingpongflex_main argv1 rank (n : Int) alloc
      = ⟨[Event.init, .malloc .buffer (toSizeT MAX_SIZE) true,
            .memset .buffer 0 (toUChar (wrapInt32 (65 + rank))) (toSizeT MAX_SIZE)]
          ++ (if rank = roleOf argv1 then (List.replicate 100 (hubRound n (roleOf argv1))).flatten
              else (List.replicate 100 (peerRound (roleOf argv1))).flatten)
          ++ [Event.free .buffer true, Event.finalize], 0⟩ := by
  have hv : ¬ (roleOf argv1 < 0 ∨ roleOf argv1 ≥ (n : Int)) := by omega
  have hs : ¬ ((n : Int) < 2) := by omega
  unfold pingpongflex_main
  simp only [hv, hs, if_false, hok, Bool.true_eq_false, forLoop_const, IT_toNat,
    hubLoop_eq_hubRound, peerRound]

theorem commCalls_framed (mid : List Event) (h : ∀ e ∈ mid, e.isComm = true)
    (b : Buf) (bytes : Nat) (fill : Int) :
    commCalls ([Event.init, .malloc b bytes true, .memset b 0 fill bytes] ++ mid
        ++ [Event.free b true, Event.finalize]) = mid := by
  rw [commCalls_append, commCalls_append, commCalls_eq_self h]
  simp [commCalls, Event.isComm]

theorem peerRounds_isComm (k : Nat) (hub : Int) :
    ∀ e ∈ (List.replicate k (peerRound hub)).flatten, e.isComm = true := by
  intro e he
  have := mem_flatten_replicate he
  simp [peerRound] at this
  rcases this with rfl | rfl <;> rfl

theorem hubRounds_isComm (k n : Nat) (hub : Int) :
    ∀ e ∈ (List.replicate k (hubRound n hub)).flatten, e.isComm = true :=
  fun e he => hubRound_isComm n hub e (mem_flatten_replicate he)

theorem pingpongflex_commCalls_hub {argv1 : Option Int} {n r : Nat} {alloc : Buf → Bool}
    (hrole : roleOf argv1 = (r : Int)) (hr : r < n) (h2 : 2 ≤ n) (hok : alloc .buffer = true) :
    commCalls (pingpongflex_main argv1 (r : Int) (n : Int) alloc).trace
      = (List.replicate 100 (hubRound n (r : Int))).flatten := by
  rw [pingpongflex_main_ok (by omega) (by omega) h2 hok, hrole]
  simp only [if_true]
  exact commCalls_framed _ (hubRounds_isComm _ _ _) _ _ _

theorem pingpongflex_commCalls_peer {argv1 : Option Int} {n r : Nat} {rank : Int}
    {alloc : Buf → Bool}
    (hrole : roleOf argv1 = (r : Int)) (hr : r < n) (h2 : 2 ≤ n) (hok : alloc .buffer = true)
    (hne : rank ≠ (r : Int)) :
    commCalls (pingpongflex_main argv1 rank (n : Int) alloc).trace
      = (List.replicate 100 (peerRound (r : Int))).flatten := by
  rw [pingpongflex_main_ok (by omega) (by omega) h2 hok, hrole]
  simp only [hne, if_false]
  exact commCalls_framed _ (peerRounds_isComm _ _) _ _ _

/-! ## Fixed-root and parametric point-to-point programs -/

theorem forLoop_congr {lo hi : Int} {f g : Int → List Event}
    (h : ∀ i, lo ≤ i → i < hi → f i = g i) : forLoop lo hi f = forLoop lo hi g := by
  rw [forLoop_eq_flatMap, forLoop_eq_flatMap]
  apply List.flatMap_congr
  intro k hk
  have hk2 := List.mem_range.mp hk
  exact h _ (by omega) (by omega)

theorem forLoop_eq_nil_of_body {lo hi : Int} {f : Int → List Event}
    (h : ∀ i, lo ≤ i → i < hi → f i = []) : forLoop lo hi f = [] := by
  rw [forLoop_congr h, forLoop_const]
  induction (hi - lo).toNat with
  | zero => rfl
  | succ n ih => simp [List.replicate_succ, ih]

/-- The scan of the fixed-root worker, `for (source = 1; source < size; source++)
if (rank == source) ...`, performs its body exactly once when `1 ≤ rank < size`. -/
theorem workerScan_eq {rank size : Int} (h1 : 1 ≤ rank) (h2 : rank < size) (l : List Event) :
    (forLoop 1 size fun source => if rank = source then l else []) = l := by
  have key : ∀ (k : Nat) (lo : Int), lo ≤ rank → rank - lo = (k : Int) →
      (forLoop lo size fun source => if rank = source then l else []) = l := by
    intro k
    induction k with
    | zero =>
      intro lo _ hk
      have hlo : lo = rank := by omega
      subst hlo
      rw [forLoop_step h2, forLoop_eq_nil_of_body]
      · simp
      · intro i hi _
        have : ¬ lo = i := by omega
        simp [this]
    | succ k ih =>
      intro lo hle hk
      have hne : ¬ rank = lo := by omega
      rw [forLoop_step (by omega), ih (lo + 1) (by omega) (by omega)]
      simp [hne]
  exact key (rank - 1).toNat 1 h1 (by omega)

/-- The peer loop of the fixed-root hub is the peer loop of the parametric hub at
hub index 0. -/
theorem hubLoop_fixed_eq {size : Int} (h : 1 ≤ size) :
    (forLoop 0 size fun dest =>
        if dest = 0 then []
        else [Event.send .buffer msg_size dest 0, Event.recv .buffer msg_size dest 0])
      = forLoop 1 size fun dest =>
          [Event.send .buffer msg_size dest 0, Event.recv .buffer msg_size dest 0] := by
  rw [forLoop_step (by omega)]
  simp only [if_true, List.nil_append, zero_add]
  apply forLoop_congr
  intro i hi _
  have : ¬ i = 0 := by omega
  simp [this]

theorem pingpongflex_default_eq_pingpong (argv1 : Option Int) (rank size : Int)
    (alloc : Buf → Bool) (hrole : roleOf argv1 = 0)
    (hN : 1 ≤ size) (h0 : 0 ≤ rank) (h1 : rank < size) :
    pingpongflex_main argv1 rank size alloc = pingpong_main rank size alloc := by
  have hv : ¬ ((0 : Int) < 0 ∨ (0 : Int) ≥ size) := by omega
  unfold pingpongflex_main pingpong_main
  simp only [hrole, hv, if_false]
  by_cases h2 : size < 2
  · simp only [h2, if_true]
  · simp only [h2, if_false]
    by_cases h3 : alloc .buffer = false
    · simp only [h3, if_true]
    · simp only [h3, if_false]
      by_cases hr : rank = 0
      · simp only [hr, if_true, hubLoop_fixed_eq hN]
      · have hr1 : 1 ≤ rank := by omega
        simp only [hr, if_false, workerScan_eq hr1 h1]

/-! ## Allocation failure -/

theorem single_buffer_fail (rank : Int) :
    reportsOwnFailure
      ⟨[Event.init, .malloc .buffer (toSizeT MAX_SIZE) false, .print (.allocFail rank),
        .finalize], 1⟩ rank := by
  refine ⟨rfl, rfl, ?_⟩
  exact ⟨.allocFail rank, by simp [diagnostics], rfl⟩

theorem exists_mem_append_iff {P : Event → Prop} (a b : List Event) :
    (∃ e ∈ a ++ b, P e) ↔ (∃ e ∈ a, P e) ∨ (∃ e ∈ b, P e) := by
  constructor
  · rintro ⟨e, he, hp⟩
    rcases List.mem_append.mp he with h | h
    · exact Or.inl ⟨e, h, hp⟩
    · exact Or.inr ⟨e, h, hp⟩
  · rintro (⟨e, he, hp⟩ | ⟨e, he, hp⟩)
    · exact ⟨e, List.mem_append_left _ he, hp⟩
    · exact ⟨e, List.mem_append_right _ he, hp⟩

theorem quiet_no_failed {l : List Event} (h : quiet l) :
    (∃ e ∈ l, e.isFailedMalloc = true) ↔ False := by
  constructor
  · rintro ⟨e, he, hp⟩
    rw [quiet_not_failedMalloc h e he] at hp
    cases hp
  · exact False.elim

theorem pingpongflex_alloc_failure (argv1 : Option Int) (rank size : Int) (alloc : Buf → Bool)
    (h : ∃ e ∈ (pingpongflex_main argv1 rank size alloc).trace, e.isFailedMalloc = true) :
    reportsOwnFailure (pingpongflex_main argv1 rank size alloc) rank := by
  unfold pingpongflex_main at h ⊢
  simp only [] at h ⊢
  split_ifs at h ⊢ with c1 c2 c3 c4 c5
  · simp [Event.isFailedMalloc] at h
  · simp [Event.isFailedMalloc] at h
  · simp [Event.isFailedMalloc] at h
  · simp [Event.isFailedMalloc] at h
  · exact single_buffer_fail rank
  · rw [exists_mem_append_iff, exists_mem_append_iff, quiet_no_failed (quiet_hubFlex _ _)] at h
    simp [Event.isFailedMalloc] at h
  · rw [exists_mem_append_iff, exists_mem_append_iff, quiet_no_failed (quiet_peerFlex _)] at h
    simp [Event.isFailedMalloc] at h

theorem pingpong_alloc_failure (rank size : Int) (alloc : Buf → Bool)
    (h : ∃ e ∈ (pingpong_main rank size alloc).trace, e.isFailedMalloc = true) :
    reportsOwnFailure (pingpong_main rank size alloc) rank := by
  unfold pingpong_main at h ⊢
  split_ifs at h ⊢ with c1 c2 c3 c4
  · simp [Event.isFailedMalloc] at h
  · simp [Event.isFailedMalloc] at h
  · exact single_buffer_fail rank
  · rw [exists_mem_append_iff, exists_mem_append_iff, quiet_no_failed (quiet_hubFixed _)] at h
    simp [Event.isFailedMalloc] at h
  · rw [exists_mem_append_iff, exists_mem_append_iff,
      quiet_no_failed (quiet_workerFixed _ _)] at h
    simp [Event.isFailedMalloc] at h

theorem bcastflex_alloc_failure (argv1 : Option Int) (rank size : Int) (alloc : Buf → Bool)
    (h : ∃ e ∈ (bcastflex_main argv1 rank size alloc).trace, e.isFailedMalloc = true) :
    reportsOwnFailure (bcastflex_main argv1 rank size alloc) rank := by
  unfold bcastflex_main at h ⊢
  simp only [] at h ⊢
  split_ifs at h ⊢ with c1 c2 c3
  · simp [Event.isFailedMalloc] at h
  · simp [Event.isFailedMalloc] at h
  · exact single_buffer_fail rank
  · rw [exists_mem_append_iff, exists_mem_append_iff, quiet_no_failed (quiet_bcastLoop _)] at h
    simp [Event.isFailedMalloc] at h

theorem bcast_alloc_failure (rank : Int) (alloc : Buf → Bool)
    (h : ∃ e ∈ (bcast_main rank alloc).trace, e.isFailedMalloc = true) :
    reportsOwnFailure (bcast_main rank alloc) rank := by
  unfold bcast_main at h ⊢
  split_ifs at h ⊢ with c1
  · exact single_buffer_fail rank
  · rw [exists_mem_append_iff, exists_mem_append_iff, quiet_no_failed (quiet_bcastLoop _)] at h
    simp [Event.isFailedMalloc] at h

theorem scatter_alloc_failure (msgSize rank size : Int) (alloc : Buf → Bool)
    (h : ∃ e ∈ (scatter_run msgSize rank size alloc).trace, e.isFailedMalloc = true) :
    reportsOwnFailure (scatter_run msgSize rank size alloc) rank := by
  unfold scatter_run at h ⊢
  split_ifs at h ⊢ with c1 c2 c3
  · refine ⟨rfl, rfl, ?_⟩
    exact ⟨.allocFailVar .recv_buffer rank, by simp [diagnostics], rfl⟩
  · refine ⟨rfl, rfl, ?_⟩
    exact ⟨.allocFailVarRoot .send_buffer, by simp [diagnostics], by rw [c2.1]; rfl⟩
  · exfalso
    simp only [exists_mem_append_iff, quiet_no_failed (quiet_scatterLoop _),
      quiet_no_failed (quiet_scatterFill _)] at h
    simp [Event.isFailedMalloc] at h
  · exfalso
    simp only [exists_mem_append_iff, quiet_no_failed (quiet_scatterLoop _)] at h
    simp [Event.isFailedMalloc] at h

theorem reduce_alloc_failure (msgSize rank : Int) (alloc : Buf → Bool)
    (h : ∃ e ∈ (reduce_run msgSize rank alloc).trace, e.isFailedMalloc = true) :
    reportsOwnFailure (reduce_run msgSize rank alloc) rank := by
  unfold reduce_run at h ⊢
  split_ifs at h ⊢ with c1 c2 c3
  · refine ⟨rfl, rfl, ?_⟩
    exact ⟨.allocFailVar .send_buffer rank, by simp [diagnostics], rfl⟩
  · refine ⟨rfl, rfl, ?_⟩
    exact ⟨.allocFailVarRoot .recv_buffer, by simp [diagnostics], by rw [c2.1]; rfl⟩
  · exfalso
    simp only [exists_mem_append_iff, quiet_no_failed (quiet_reduceLoop _),
      quiet_no_failed (quiet_reduceFill _)] at h
    simp [Event.isFailedMalloc] at h
  · exfalso
    simp only [exists_mem_append_iff, quiet_no_failed (quiet_reduceLoop _),
      quiet_no_failed (quiet_reduceFill _)] at h
    simp [Event.isFailedMalloc] at h

/-- On a failed allocation `all2all` ends with exit code 1 without communication call; its
diagnostic gives the number of bytes requested and is printed by rank 0 only. -/
theorem all2all_alloc_failure (rank size : Int) (alloc : Buf → Bool)
    (h : ∃ e ∈ (all2all_main rank size alloc).trace, e.isFailedMalloc = true) :
    (all2all_main rank size alloc).exit = 1
    ∧ commCalls (all2all_main rank size alloc).trace = []
    ∧ diagnostics (all2all_main rank size alloc).trace
        = if rank = 0 then [Diag.allocFailBytes (mulSizeT 1024 (toSizeT size))] else [] := by
  unfold all2all_main at h ⊢
  simp only [] at h ⊢
  by_cases c1 : alloc .send_buffer = false ∨ alloc .recv_buffer = false
  · rw [if_pos c1]
    refine ⟨rfl, ?_, ?_⟩
    · by_cases h0 : rank = 0 <;> simp [h0, commCalls, Event.isComm]
    · by_cases h0 : rank = 0 <;> simp [h0, diagnostics, msg_size, toSizeT]
  · exfalso
    rw [if_neg c1] at h
    simp only [exists_mem_append_iff, quiet_no_failed quiet_alltoallLoop,
      quiet_no_failed (quiet_all2allFill _ _)] at h
    simp [Event.isFailedMalloc] at h

/-! ## Release of buffers -/

/-- A run that calls neither `malloc` nor `free`. -/
theorem heapClean_rejected (d : List Event) (hd : ∀ e ∈ d, ∃ m, e = Event.print m)
    (code : Int) : heapClean ⟨[Event.init] ++ d ++ [Event.finalize], code⟩ := by
  have hrun : ∀ live, heapRun d live = some live := by
    intro live
    induction d with
    | nil => rfl
    | cons e es ih =>
      obtain ⟨m, rfl⟩ := hd _ (List.mem_cons_self _ _)
      simp only [heapRun, heapStep]
      exact ih fun a ha => hd a (List.mem_cons_of_mem _ ha)
  constructor
  · show heapRun ([Event.init] ++ d ++ [Event.finalize]) [] = some []
    rw [heapRun_append, heapRun_append]
    simp only [heapRun, heapStep, Option.bind, hrun]
  · intro _ e he
    simp only [List.mem_append, List.mem_singleton] at he
    rcases he with (rfl | h) | rfl
    · rfl
    · obtain ⟨m, rfl⟩ := hd e h
      rfl
    · rfl

/-- A run whose only allocation fails. -/
theorem heapClean_failed (v : Buf) (n : Nat) (d : Diag) (code : Int) :
    heapClean ⟨[Event.init, .malloc v n false, .print d, .finalize], code⟩ := by
  constructor
  · rfl
  · intro h
    have := h (Event.malloc v n false) (by simp)
    simp [Event.isMalloc] at this

/-- A run with one buffer, allocated and filled before, and released after, a stretch of
communication calls. -/
theorem heapClean_single (v : Buf) (n : Nat) (c : Int) {mid : List Event} (hq : quiet mid)
    (code : Int) :
    heapClean ⟨[Event.init, .malloc v n true, .memset v 0 c n] ++ mid
      ++ [Event.free v true, Event.finalize], code⟩ := by
  constructor
  · show heapRun ([Event.init, .malloc v n true, .memset v 0 c n] ++ mid
        ++ [Event.free v true, Event.finalize]) [] = some []
    rw [heapRun_append, heapRun_append]
    simp [heapRun, heapStep, heapRun_quiet hq]
  · intro h
    have := h (Event.malloc v n true) (by simp)
    simp [Event.isMalloc] at this

theorem pingpongflex_heap (argv1 : Option Int) (rank size : Int) (alloc : Buf → Bool) :
    heapClean (pingpongflex_main argv1 rank size alloc) := by
  unfold pingpongflex_main
  simp only []
  split_ifs with c1 c2 c3 c4 c5
  · exact heapClean_rejected [_] (by simp) 1
  · exact heapClean_rejected [] (by simp) 1
  · exact heapClean_rejected [_] (by simp) 1
  · exact heapClean_rejected [] (by simp) 1
  · exact heapClean_failed _ _ _ 1
  · exact heapClean_single _ _ _ (quiet_hubFlex _ _) 0
  · exact heapClean_single _ _ _ (quiet_peerFlex _) 0

theorem pingpong_heap (rank size : Int) (alloc : Buf → Bool) :
    heapClean (pingpong_main rank size alloc) := by
  unfold pingpong_main
  split_ifs with c1 c2 c3 c4
  · exact heapClean_rejected [_] (by simp) 1
  · exact heapClean_rejected [] (by simp) 1
  · exact heapClean_failed _ _ _ 1
  · exact heapClean_single _ _ _ (quiet_hubFixed _) 0
  · exact heapClean_single _ _ _ (quiet_workerFixed _ _) 0

theorem bcastflex_heap (argv1 : Option Int) (rank size : Int) (alloc : Buf → Bool) :
    heapClean (bcastflex_main argv1 rank size alloc) := by
  unfold bcastflex_main
  simp only []
  split_ifs with c1 c2 c3
  · exact heapClean_rejected [_] (by simp) 1
  · exact heapClean_rejected [] (by simp) 1
  · exact heapClean_failed _ _ _ 1
  · exact heapClean_single _ _ _ (quiet_bcastLoop _) 0

theorem bcast_heap (rank : Int) (alloc : Buf → Bool) : heapClean (bcast_main rank alloc) := by
  unfold bcast_main
  split_ifs with c1
  · exact heapClean_failed _ _ _ 1
  · exact heapClean_single _ _ _ (quiet_bcastLoop _) 0

/-- A run whose first allocation succeeds and whose second fails, releasing the first. -/
theorem heapClean_second_failed (v w : Buf) (n m : Nat) (d : Diag) (code : Int) :
    heapClean ⟨[Event.init, .malloc v n true, .malloc w m false, .print d, .free v true,
      .finalize], code⟩ := by
  constructor
  · simp [heapRun, heapStep]
  · intro h
    have := h (Event.malloc v n true) (by simp)
    simp [Event.isMalloc] at this

theorem malloc_mem_absurd {tr : List Event} (ev : Event) (hev : ev.isMalloc = true)
    (hm : ev ∈ tr) (h : ∀ e ∈ tr, e.isMalloc = false) :
    ∀ e ∈ tr, e.isFree = false := by
  have := h _ hm
  rw [hev] at this
  cases this

theorem scatter_heap (msgSize rank size : Int) (alloc : Buf → Bool) :
    heapClean (scatter_run msgSize rank size alloc) := by
  unfold scatter_run
  split_ifs with c1 c2 c3
  · exact heapClean_failed _ _ _ 1
  · exact heapClean_second_failed _ _ _ _ _ 1
  · constructor
    · simp only [List.append_assoc, List.cons_append, List.nil_append, heapRun_cons,
        heapRun_nil, heapStep, heapRun_quiet_append (quiet_scatterFill _),
        heapRun_quiet_append (quiet_scatterLoop _)]
      simp
    · exact malloc_mem_absurd (Event.malloc .recv_buffer (toSizeT MAX_SIZE) true) rfl (by simp)
  · constructor
    · simp only [List.append_assoc, List.cons_append, List.nil_append, heapRun_cons,
        heapRun_nil, heapStep, heapRun_quiet_append (quiet_scatterLoop _)]
      simp
    · exact malloc_mem_absurd (Event.malloc .recv_buffer (toSizeT MAX_SIZE) true) rfl (by simp)

/-- A run with two buffers allocated one after the other and released in the same
order, around stretches of local writes and communication calls. -/
theorem heapClean_two (v w : Buf) (hvw : v ≠ w) (n m : Nat) {fill mid : List Event}
    (hf : quiet fill) (hq : quiet mid) (code : Int) :
    heapClean ⟨[Event.init, .malloc v n true] ++ [Event.malloc w m true] ++ fill ++ mid
      ++ [Event.free v true] ++ [Event.free w true] ++ [Event.finalize], code⟩ := by
  have hwv : w ≠ v := fun h => hvw h.symm
  constructor
  · show heapRun ([Event.init, .malloc v n true] ++ [Event.malloc w m true] ++ fill ++ mid
      ++ [Event.free v true] ++ [Event.free w true] ++ [Event.finalize]) [] = some []
    simp only [heapRun_append, heapRun_cons, heapRun_nil, heapStep, heapRun_quiet hf,
      heapRun_quiet hq]
    simp [hvw, hwv]
  · exact malloc_mem_absurd (Event.malloc v n true) rfl (by simp)

/-- A run with one buffer only, on a process that is not the root. -/
theorem heapClean_one (v : Buf) (n : Nat) {fill mid : List Event}
    (hf : quiet fill) (hq : quiet mid) (code : Int) :
    heapClean ⟨[Event.init, .malloc v n true] ++ [] ++ fill ++ mid
      ++ [Event.free v true] ++ [] ++ [Event.finalize], code⟩ := by
  constructor
  · show heapRun ([Event.init, .malloc v n true] ++ [] ++ fill ++ mid
      ++ [Event.free v true] ++ [] ++ [Event.finalize]) [] = some []
    simp only [heapRun_append, heapRun_cons, heapRun_nil, heapStep, heapRun_quiet hf,
      heapRun_quiet hq]
    simp
  · exact malloc_mem_absurd (Event.malloc v n true) rfl (by simp)

theorem reduce_heap (msgSize rank : Int) (alloc : Buf → Bool) :
    heapClean (reduce_run msgSize rank alloc) := by
  unfold reduce_run
  split_ifs with c1 c2 c3
  · exact heapClean_failed _ _ _ 1
  · exact heapClean_second_failed _ _ _ _ _ 1
  · exact heapClean_two _ _ (by decide) _ _ (quiet_reduceFill _) (quiet_reduceLoop _) 0
  · exact heapClean_one _ _ (quiet_reduceFill _) (quiet_reduceLoop _) 0

/-- The failure exit of `all2all`: both pointers are passed to `free`, the one that is
NULL included. -/
theorem heapClean_all2all_failed (n : Nat) (a b : Bool) (hab : a = false ∨ b = false)
    (d : List Event) (hd : ∀ e ∈ d, ∃ m, e = Event.print m) (code : Int) :
    heapClean ⟨[Event.init, .malloc .send_buffer n a, .malloc .recv_buffer n b] ++ d
      ++ [Event.free .send_buffer a, Event.free .recv_buffer b, Event.finalize], code⟩ := by
  have hrun : ∀ live, heapRun d live = some live := by
    intro live
    induction d with
    | nil => rfl
    | cons e es ih =>
      obtain ⟨m, rfl⟩ := hd _ (List.mem_cons_self _ _)
      simp only [heapRun, heapStep]
      exact ih fun a ha => hd a (List.mem_cons_of_mem _ ha)
  constructor
  · show heapRun ([Event.init, .malloc .send_buffer n a, .malloc .recv_buffer n b] ++ d
      ++ [Event.free .send_buffer a, Event.free .recv_buffer b, Event.finalize]) [] = some []
    cases a <;> cases b <;>
      simp [heapRun_append, heapRun_cons, heapRun_nil, heapStep, hrun] at hab ⊢
  · exact malloc_mem_absurd (Event.malloc .send_buffer n a) rfl (by simp)

/-- The normal exit of `all2all`. -/
theorem heapClean_all2all_ok (n : Nat) {fill mid : List Event}
    (hf : quiet fill) (hq : quiet mid) (code : Int) :
    heapClean ⟨[Event.init, .malloc .send_buffer n true, .malloc .recv_buffer n true] ++ fill
      ++ mid ++ [Event.free .send_buffer true, Event.free .recv_buffer true, Event.finalize],
      code⟩ := by
  constructor
  · show heapRun ([Event.init, .malloc .send_buffer n true, .malloc .recv_buffer n true] ++ fill
      ++ mid ++ [Event.free .send_buffer true, Event.free .recv_buffer true, Event.finalize])
      [] = some []
    simp only [heapRun_append, heapRun_cons, heapRun_nil, heapStep, heapRun_quiet hf,
      heapRun_quiet hq]
    simp
  · exact malloc_mem_absurd (Event.malloc .send_buffer n true) rfl (by simp)

theorem all2all_heap (rank size : Int) (alloc : Buf → Bool) :
    heapClean (all2all_main rank size alloc) := by
  unfold all2all_main
  simp only []
  by_cases c1 : alloc .send_buffer = false ∨ alloc .recv_buffer = false
  · rw [if_pos c1]
    by_cases h0 : rank = 0
    · rw [if_pos h0]
      exact heapClean_all2all_failed _ _ _ c1 [_] (by simp) 1
    · rw [if_neg h0]
      exact heapClean_all2all_failed _ _ _ c1 [] (by simp) 1
  · rw [if_neg c1]
    exact heapClean_all2all_ok _ (quiet_all2allFill _ _) quiet_alltoallLoop 0

/-- Every program keeps the heap discipline on every input. -/
theorem run_heapClean (p : Program) (x : Input) : heapClean (run p x) := by
  cases p with
  | all2all => exact all2all_heap _ _ _
  | bcast => exact bcast_heap _ _
  | bcastflex => exact bcastflex_heap _ _ _ _
  | pingpong => exact pingpong_heap _ _ _
  | pingpongflex => exact pingpongflex_heap _ _ _ _
  | reduce => exact reduce_heap _ _ _
  | scatter => exact scatter_heap _ _ _ _

/-! ## From the replayed heap to counts of allocations and releases -/

theorem heapStep_counts {e : Event} {live l1 : List Buf} (h : heapStep live e = some l1)
    (hnd : live.Nodup) :
    l1.Nodup ∧ ∀ v, allocCount [e] v + live.count v = freeCount [e] v + l1.count v := by
  cases e with
  | malloc w n ok =>
    cases ok with
    | false =>
      simp only [heapStep, Option.some.injEq] at h
      subst h
      exact ⟨hnd, fun v => by simp [allocCount, freeCount]⟩
    | true =>
      simp only [heapStep] at h
      split_ifs at h with hm
      simp only [Option.some.injEq] at h
      subst h
      refine ⟨List.nodup_cons.mpr ⟨hm, hnd⟩, fun v => ?_⟩
      by_cases hwv : w = v
      · subst hwv
        simp [allocCount, freeCount, List.count_cons]
        omega
      · simp [allocCount, freeCount, List.count_cons, hwv]
  | free w ok =>
    cases ok with
    | false =>
      simp only [heapStep, Option.some.injEq] at h
      subst h
      exact ⟨hnd, fun v => by simp [allocCount, freeCount]⟩
    | true =>
      simp only [heapStep] at h
      split_ifs at h with hm
      simp only [Option.some.injEq] at h
      subst h
      refine ⟨hnd.erase w, fun v => ?_⟩
      by_cases hwv : w = v
      · subst hwv
        have h1 := List.count_eq_one_of_mem hnd hm
        simp [allocCount, freeCount, List.count_erase, h1]
      · simp [allocCount, freeCount, List.count_erase, hwv]
  | init | finalize | print _ | memset _ _ _ _ | storeInt _ _ _ | send _ _ _ _
  | recv _ _ _ _ | bcast _ _ _ | scatter _ _ _ _ | reduce _ _ _ _ | alltoall _ _ _ =>
    simp only [heapStep, Option.some.injEq] at h
    subst h
    exact ⟨hnd, fun v => by simp [allocCount, freeCount]⟩

theorem allocCount_cons (e : Event) (es : List Event) (v : Buf) :
    allocCount (e :: es) v = allocCount [e] v + allocCount es v := by
  simp only [allocCount, List.countP_cons, List.countP_nil]
  omega

theorem freeCount_cons (e : Event) (es : List Event) (v : Buf) :
    freeCount (e :: es) v = freeCount [e] v + freeCount es v := by
  simp only [freeCount, List.countP_cons, List.countP_nil]
  omega

theorem heapRun_counts (l : List Event) :
    ∀ (live live2 : List Buf), heapRun l live = some live2 → live.Nodup →
      live2.Nodup ∧ ∀ v, allocCount l v + live.count v = freeCount l v + live2.count v := by
  induction l with
  | nil =>
    intro live live2 h hnd
    simp only [heapRun_nil, Option.some.injEq] at h
    subst h
    exact ⟨hnd, fun v => by simp [allocCount, freeCount]⟩
  | cons e es ih =>
    intro live live2 h hnd
    rw [heapRun_cons] at h
    cases hs : heapStep live e with
    | none =>
      rw [hs] at h
      cases h
    | some l1 =>
      rw [hs] at h
      obtain ⟨hnd1, hc1⟩ := heapStep_counts hs hnd
      obtain ⟨hnd2, hc2⟩ := ih l1 live2 h hnd1
      refine ⟨hnd2, fun v => ?_⟩
      have a := hc1 v
      have b := hc2 v
      rw [allocCount_cons, freeCount_cons]
      omega

/-- A trace that replays to an empty heap releases each variable's buffer as many times
as it allocates it. -/
theorem counts_of_heapRun {tr : List Event} (h : heapRun tr [] = some []) (v : Buf) :
    freeCount tr v = allocCount tr v := by
  have := (heapRun_counts tr [] [] h List.nodup_nil).2 v
  simpa using this.symm

/-! ## Content of the buffers after the fill -/

theorem memAfter_eq (tr : List Event) : memAfter tr = applyStores tr (fun _ _ => none) := rfl

theorem applyStores_append (a b : List Event) (m : Mem) :
    applyStores (a ++ b) m = applyStores b (applyStores a m) := by
  simp [applyStores, List.foldl_append]

theorem applyStores_nil (m : Mem) : applyStores [] m = m := rfl

theorem applyStores_cons (e : Event) (es : List Event) (m : Mem) :
    applyStores (e :: es) m = applyStores es (e.store m) := rfl

theorem store_of_not_write {e : Event} (h : e.isWrite = false) (m : Mem) : e.store m = m := by
  cases e <;> first | rfl | simp [Event.isWrite] at h

theorem applyStores_of_not_write (l : List Event) (h : ∀ e ∈ l, e.isWrite = false) (m : Mem) :
    applyStores l m = m := by
  induction l generalizing m with
  | nil => rfl
  | cons e es ih =>
    rw [applyStores_cons, store_of_not_write (h e (List.mem_cons_self _ _))]
    exact ih (fun a ha => h a (List.mem_cons_of_mem _ ha)) m

/-- A timed loop of one communication call per iteration writes nothing locally. -/
theorem applyStores_timed (e : Event) (h : e.isWrite = false) (lo hi : Int) (m : Mem) :
    applyStores (forLoop lo hi fun _ => [e]) m = m := by
  apply applyStores_of_not_write
  apply forLoop_forall
  intro i _ _ a ha
  rw [List.mem_singleton.mp ha]
  exact h

/-- A fill loop of `memset` calls: a cell covered by iteration `j` and by no other
iteration holds the value written by iteration `j`. -/
theorem applyStores_memsetLoop (v : Buf) (off val : Int → Int) (len : Nat) (lo : Int)
    (o j : Int) (m : Mem) :
    ∀ (k : Nat) (hi : Int), hi = lo + (k : Int) → lo ≤ j → j < hi →
      (off j ≤ o ∧ o < off j + (len : Int)) →
      (∀ i, lo ≤ i → i < hi → i ≠ j → ¬ (off i ≤ o ∧ o < off i + (len : Int))) →
      applyStores (forLoop lo hi fun i => [Event.memset v (off i) (val i) len]) m v o
        = some (val j) := by
  intro k
  induction k with
  | zero =>
    intro hi hhi h1 h2 _ _
    omega
  | succ k ih =>
    intro hi hhi h1 h2 hin hdis
    have hhi2 : hi = (lo + (k : Int)) + 1 := by
      rw [hhi]
      push_cast
      ring
    rw [hhi2, forLoop_snoc (by omega), applyStores_append, applyStores_cons, applyStores_nil]
    by_cases hj : j = lo + (k : Int)
    · subst hj
      simp [Event.store, hin]
    · have hnot := hdis (lo + (k : Int)) (by omega) (by omega) (fun h => hj h.symm)
      have hrec := ih (lo + (k : Int)) rfl h1 (by omega) hin
        (fun i hi1 hi2 hne => hdis i hi1 (by omega) hne)
      simp only [Event.store, hnot, and_false, if_false]
      exact hrec

/-- A fill loop of `int` stores at the indices `lo .. hi-1`: each of these slots holds
the value stored. -/
theorem applyStores_storeLoop (v : Buf) (c : Int) (lo s : Int) (m : Mem) :
    ∀ (k : Nat) (hi : Int), hi = lo + (k : Int) → lo ≤ s → s < hi →
      applyStores (forLoop lo hi fun i => [Event.storeInt v i c]) m v s = some c := by
  intro k
  induction k with
  | zero =>
    intro hi hhi h1 h2
    omega
  | succ k ih =>
    intro hi hhi h1 h2
    have hhi2 : hi = (lo + (k : Int)) + 1 := by
      rw [hhi]
      push_cast
      ring
    rw [hhi2, forLoop_snoc (by omega), applyStores_append, applyStores_cons, applyStores_nil]
    by_cases hs : s = lo + (k : Int)
    · simp [Event.store, hs]
    · have hrec := ih (lo + (k : Int)) rfl h1 (by omega)
      simp only [Event.store, hs, and_false, if_false]
      exact hrec

/-! ## The send buffer of `all2all` -/

theorem all2all_fillValue_of_range {rank j : Int} (h0 : 0 ≤ rank) (h1 : 0 ≤ j)
    (h2 : rank + j ≤ INT_MAX) :
    toUChar (all2all_fillValue rank j) = 65 + (rank + j) % 26 := by
  unfold INT_MAX at h2
  unfold all2all_fillValue
  rw [wrapInt32_of_range (rank + j) (by omega) (by omega),
    Int.tmod_eq_emod (by omega) (by omega)]
  rw [wrapInt32_of_range _ (by omega) (by omega), toUChar_of_range _ (by omega) (by omega)]

/-- After the run of `all2all` with both allocations successful, every byte of segment
`j` of the send buffer holds the fill value of iteration `j`. -/
theorem all2all_send_content (rank size : Int) (alloc : Buf → Bool)
    (hs : alloc .send_buffer = true) (hr : alloc .recv_buffer = true)
    (hsize : size ≤ INT_MAX) (j t : Int) (hj : 0 ≤ j) (hj2 : j < size)
    (ht : 0 ≤ t) (ht2 : t < 1024) :
    memAfter (all2all_main rank size alloc).trace .send_buffer (j * 1024 + t)
      = some (toUChar (all2all_fillValue rank j)) := by
  have hc : ¬ (alloc .send_buffer = false ∨ alloc .recv_buffer = false) := by simp [hs, hr]
  unfold all2all_main
  simp only [hc, if_false]
  rw [memAfter_eq, applyStores_append, applyStores_append, applyStores_append,
    applyStores_of_not_write [Event.free .send_buffer true, Event.free .recv_buffer true,
      Event.finalize] (by simp [Event.isWrite]),
    applyStores_timed (Event.alltoall .send_buffer .recv_buffer msg_size) rfl,
    applyStores_of_not_write [Event.init, _, _] (by simp [Event.isWrite])]
  apply applyStores_memsetLoop .send_buffer
    (fun i => ((mulSizeT (toSizeT i) (toSizeT msg_size) : Nat) : Int))
    (fun i => toUChar (all2all_fillValue rank i)) (toSizeT msg_size) 0 (j * 1024 + t) j _
    size.toNat size (by omega) hj hj2
  · rw [all2all_offset hj (by omega), toSizeT_msg_size]
    constructor <;> push_cast <;> omega
  · intro i hi1 hi2 hne
    rw [all2all_offset hi1 (by omega), toSizeT_msg_size]
    push_cast
    omega

/-! ## The reduction -/

theorem reduce_elements_eq {m : Int} (h0 : 0 ≤ m) (h1 : m ≤ INT_MAX) :
    reduce_elements m = max 1 (m / 4) := by
  unfold INT_MAX at h1
  have hm : ((toSizeT m : Nat) : Int) = m := toSizeT_of_range m h0 (by omega)
  have hdiv : (((toSizeT m / sizeofInt : Nat)) : Int) = m / 4 := by
    unfold sizeofInt
    push_cast
    rw [hm]
  unfold reduce_elements
  simp only [hdiv]
  rw [wrapInt32_of_range _ (by omega) (by omega)]
  by_cases hz : m / 4 = 0
  · simp [hz]
  · have hpos : 1 ≤ m / 4 := by omega
    simp [hz, max_eq_right hpos]

/-- The calls of `reduce` with successful allocations: 100 reductions of
`reduce_elements msgSize` elements rooted at 0. -/
theorem reduce_commCalls (msgSize rank : Int) (alloc : Buf → Bool)
    (hs : alloc .send_buffer = true) (hr : rank = 0 → alloc .recv_buffer = true) :
    (reduce_run msgSize rank alloc).exit = 0
    ∧ commCalls (reduce_run msgSize rank alloc).trace
      = List.replicate 100
          (Event.reduce .send_buffer .recv_buffer (reduce_elements msgSize) 0) := by
  have c1 : ¬ alloc .send_buffer = false := by simp [hs]
  have c2 : ¬ (rank = 0 ∧ alloc .recv_buffer = false) := by
    rintro ⟨h0, hf⟩
    rw [hr h0] at hf
    cases hf
  unfold reduce_run
  rw [if_neg c1, if_neg c2]
  refine ⟨rfl, ?_⟩
  simp only [commCalls_append]
  have hfill : commCalls (forLoop 0 reduce_num_elements fun i =>
      [Event.storeInt .send_buffer i (wrapInt32 (rank + 1))]) = [] :=
    commCalls_eq_nil (forLoop_forall fun i _ _ e he => by rw [List.mem_singleton.mp he]; rfl)
  have hloop : commCalls (List.replicate 100
      (Event.reduce .send_buffer .recv_buffer (reduce_elements msgSize) 0))
      = List.replicate 100
          (Event.reduce .send_buffer .recv_buffer (reduce_elements msgSize) 0) :=
    commCalls_eq_self fun e he => by rw [List.eq_of_mem_replicate he]; rfl
  rw [hfill, forLoop_const, IT_toNat, flatten_replicate_singleton, hloop]
  by_cases h0 : rank = 0 <;> simp [h0, commCalls, Event.isComm]

/-- After the run of `reduce` with successful allocations, every slot of the send buffer
filled by the fill loop (`0 .. num_elements-1`) holds `rank + 1`. -/
theorem reduce_send_content (msgSize rank : Int) (alloc : Buf → Bool)
    (hs : alloc .send_buffer = true) (hr : rank = 0 → alloc .recv_buffer = true)
    (s : Int) (hs0 : 0 ≤ s) (hs1 : s < 262144) :
    memAfter (reduce_run msgSize rank alloc).trace .send_buffer s
      = some (wrapInt32 (rank + 1)) := by
  have c1 : ¬ alloc .send_buffer = false := by simp [hs]
  have c2 : ¬ (rank = 0 ∧ alloc .recv_buffer = false) := by
    rintro ⟨h0, hf⟩
    rw [hr h0] at hf
    cases hf
  have hopt : ∀ (a : Event), a.isWrite = false →
      ∀ e ∈ (if rank = 0 then [a] else []), e.isWrite = false := by
    intro a ha e he
    split_ifs at he
    · rw [List.mem_singleton.mp he]
      exact ha
    · cases he
  unfold reduce_run
  rw [if_neg c1, if_neg c2, memAfter_eq]
  simp only [applyStores_append]
  rw [applyStores_of_not_write [Event.finalize] (by simp [Event.isWrite]),
    applyStores_of_not_write _ (hopt (Event.free .recv_buffer true) rfl),
    applyStores_of_not_write [Event.free .send_buffer true] (by simp [Event.isWrite]),
    applyStores_timed (Event.reduce .send_buffer .recv_buffer (reduce_elements msgSize) 0) rfl,
    applyStores_of_not_write _ (hopt (Event.malloc .recv_buffer (toSizeT MAX_SIZE) true) rfl),
    applyStores_of_not_write [Event.init, _] (by simp [Event.isWrite])]
  exact applyStores_storeLoop .send_buffer (wrapInt32 (rank + 1)) 0 s _ 262144
    reduce_num_elements (by rw [reduce_num_elements_eq]; rfl) hs0
    (by rw [reduce_num_elements_eq]; exact hs1)

theorem triangle_succ (n : Nat) : (n + 1) * (n + 2) / 2 = n * (n + 1) / 2 + (n + 1) := by
  have h : (n + 1) * (n + 2) = n * (n + 1) + 2 * (n + 1) := by ring
  rw [h, Nat.add_mul_div_left _ _ (by decide : 0 < 2)]

theorem triangle_mono {n m : Nat} (h : n ≤ m) : n * (n + 1) / 2 ≤ m * (m + 1) / 2 :=
  Nat.div_le_div_right (Nat.mul_le_mul h (by omega))

theorem le_triangle (n : Nat) : n ≤ n * (n + 1) / 2 := by
  induction n with
  | zero => simp
  | succ n ih =>
    rw [triangle_succ]
    omega

/-- The `int` sum of the contributions `1, 2, .., n` does not overflow while the
triangular number fits an `int`. -/
theorem reduceSum_triangle (contrib : Nat → Option Int) (N : Nat)
    (hc : ∀ i, i < N → contrib i = some ((i : Int) + 1))
    (hfit : ((N * (N + 1) / 2 : Nat) : Int) ≤ INT_MAX) :
    ∀ n, n ≤ N → reduceSum contrib n = some ((n * (n + 1) / 2 : Nat) : Int) := by
  unfold INT_MAX at hfit
  intro n
  induction n with
  | zero => intro _; rfl
  | succ n ih =>
    intro hn
    have hsucc : (n + 1) * (n + 1 + 1) / 2 = n * (n + 1) / 2 + (n + 1) := triangle_succ n
    have hmono : (n + 1) * (n + 1 + 1) / 2 ≤ N * (N + 1) / 2 := triangle_mono hn
    simp only [reduceSum, ih (by omega), hc n (by omega)]
    rw [hsucc] at hmono ⊢
    generalize n * (n + 1) / 2 = A at hmono ⊢
    generalize N * (N + 1) / 2 = B at hmono hfit
    rw [wrapInt32_of_range _ (by omega) (by omega)]
    push_cast
    ring_nf

/-! ## The send buffer of `scatter` -/

/-- The offset `i * MAX_SIZE` of segment `i` in `scatter.c` while the `int` product does
not overflow. -/
theorem scatter_offset (i : Int) (h1 : 0 ≤ i) (h2 : i ≤ 2047) :
    wrapInt32 (i * MAX_SIZE) = i * 1048576 := by
  unfold MAX_SIZE
  exact wrapInt32_of_range _ (by omega) (by omega)

/-- After the run of the root of `scatter` with successful allocations, in a group of at
most 2047 processes, every byte of the `MAX_SIZE`-wide segment `i` of the send buffer
holds the fill value `'A' + i` (as an `unsigned char`). -/
theorem scatter_send_content (msgSize size : Int) (alloc : Buf → Bool)
    (hr : alloc .recv_buffer = true) (hs : alloc .send_buffer = true)
    (hsize : size ≤ 2047) (i t : Int) (hi : 0 ≤ i) (hi2 : i < size)
    (ht : 0 ≤ t) (ht2 : t < 1048576) :
    memAfter (scatter_run msgSize 0 size alloc).trace .send_buffer (i * 1048576 + t)
      = some (toUChar (65 + i)) := by
  have c1 : ¬ alloc .recv_buffer = false := by simp [hr]
  have c2 : ¬ ((0 : Int) = 0 ∧ alloc .send_buffer = false) := by simp [hs]
  unfold scatter_run
  rw [if_neg c1, if_neg c2, memAfter_eq]
  simp only [if_true, applyStores_append]
  rw [applyStores_of_not_write [Event.finalize] (by simp [Event.isWrite]),
    applyStores_of_not_write [Event.free .send_buffer true] (by simp [Event.isWrite]),
    applyStores_of_not_write [Event.free .recv_buffer true] (by simp [Event.isWrite]),
    applyStores_timed (Event.scatter .send_buffer .recv_buffer msgSize 0) rfl,
    applyStores_of_not_write [Event.malloc .send_buffer _ true] (by simp [Event.isWrite]),
    applyStores_of_not_write [Event.init, _] (by simp [Event.isWrite])]
  rw [← toUChar_wrapInt32]
  apply applyStores_memsetLoop .send_buffer (fun i => wrapInt32 (i * MAX_SIZE))
    (fun i => toUChar (wrapInt32 (65 + i))) (toSizeT MAX_SIZE) 0 (i * 1048576 + t) i _
    size.toNat size (by omega) hi hi2
  · rw [scatter_offset i hi (by omega), toSizeT_MAX_SIZE]
    constructor <;> push_cast <;> omega
  · intro k hk1 hk2 hne
    rw [scatter_offset k hk1 (by omega), toSizeT_MAX_SIZE]
    push_cast
    omega

/-- What the scatter of the program delivers in a group of at most 1024 processes: every
destination receives bytes of segment 0 of the root's send buffer, all equal to `'A'`. -/
theorem scatter_received_first_segment (size j t : Int) (alloc : Buf → Bool)
    (hr : alloc .recv_buffer = true) (hs : alloc .send_buffer = true)
    (hsize : size ≤ 1024) (hj : 0 ≤ j) (hj2 : j < size) (ht : 0 ≤ t) (ht2 : t < 1024) :
    scatterReceived (memAfter (scatter_main 0 size alloc).trace .send_buffer) 1024 j t
      = some 65 := by
  have h := scatter_send_content msg_size size alloc hr hs (by omega) 0 (j * 1024 + t)
    (by omega) (by omega) (by omega) (by omega)
  unfold scatterReceived scatter_main
  rw [show j * 1024 + t = 0 * 1048576 + (j * 1024 + t) by ring, h]
  rfl

/-! ## Byte ranges and capacities -/

theorem allInBounds_of_fits {rank size : Int} {tr : List Event}
    (h : ∀ e ∈ tr, e.fits (capacityOf tr) rank size) : allInBounds rank size tr := by
  intro a ha
  unfold accessesOf at ha
  obtain ⟨e, he, hae⟩ := List.mem_flatMap.mp ha
  obtain ⟨c, hc, h1, h2, h3⟩ := h e he a hae
  unfold Access.inBounds
  rw [hc]
  simp [h1, h2, h3]

theorem fits_of_no_access {cap : Buf → Option Nat} {rank size : Int} {e : Event}
    (h : e.accesses rank size = []) : e.fits cap rank size := by
  intro a ha
  rw [h] at ha
  cases ha

theorem forall_mem_append_of {P : Event → Prop} {a b : List Event}
    (ha : ∀ e ∈ a, P e) (hb : ∀ e ∈ b, P e) : ∀ e ∈ a ++ b, P e := by
  intro e he
  rcases List.mem_append.mp he with h | h
  · exact ha e h
  · exact hb e h

theorem capacityOf_cons (e : Event) (es : List Event) (v : Buf) :
    capacityOf (e :: es) v
      = match e with
        | .malloc w bytes true => if w = v then some bytes else capacityOf es v
        | _ => capacityOf es v := by
  unfold capacityOf
  rw [List.findSome?_cons]
  cases e with
  | malloc w n ok =>
    cases ok with
    | false => rfl
    | true =>
      by_cases hw : w = v
      · simp [hw]
      · simp [hw]
  | init | finalize | print _ | memset _ _ _ _ | storeInt _ _ _ | send _ _ _ _
  | recv _ _ _ _ | bcast _ _ _ | scatter _ _ _ _ | reduce _ _ _ _ | alltoall _ _ _ | free _ _ =>
    rfl

/-- A run of a one-buffer program with the allocation successful: accesses to `buffer` of
at most `MAX_SIZE` bytes from offset 0 stay inside its capacity. -/
theorem allInBounds_single (rank size c : Int) (mid : List Event)
    (hmid : ∀ e ∈ mid, ∀ a ∈ e.accesses rank size,
      a.var = Buf.buffer ∧ a.off = 0 ∧ 0 ≤ a.len ∧ a.len ≤ 1048576) :
    allInBounds rank size
      ([Event.init, .malloc .buffer (toSizeT MAX_SIZE) true,
          .memset .buffer 0 c (toSizeT MAX_SIZE)] ++ mid
        ++ [Event.free .buffer true, Event.finalize]) := by
  apply allInBounds_of_fits
  have hcap : capacityOf ([Event.init, .malloc .buffer (toSizeT MAX_SIZE) true,
          .memset .buffer 0 c (toSizeT MAX_SIZE)] ++ mid
        ++ [Event.free .buffer true, Event.finalize]) .buffer = some 1048576 := by
    simp only [List.append_assoc, List.cons_append, capacityOf_cons, if_true,
      toSizeT_MAX_SIZE]
  apply forall_mem_append_of
  · apply forall_mem_append_of
    · intro e he
      simp only [List.mem_cons, List.mem_singleton, List.not_mem_nil, or_false] at he
      rcases he with rfl | rfl | rfl
      · exact fits_of_no_access rfl
      · exact fits_of_no_access rfl
      · intro a ha
        simp only [Event.accesses, List.mem_singleton] at ha
        subst ha
        exact ⟨1048576, hcap, by simp, by simp, by simp [toSizeT_MAX_SIZE]⟩
    · intro e he a ha
      obtain ⟨h1, h2, h3, h4⟩ := hmid e he a ha
      refine ⟨1048576, by rw [h1]; exact hcap, by omega, h3, ?_⟩
      push_cast
      omega
  · intro e he
    simp only [List.mem_cons, List.mem_singleton, List.not_mem_nil, or_false] at he
    rcases he with rfl | rfl
    · exact fits_of_no_access rfl
    · exact fits_of_no_access rfl

/-- A run without local write and without communication call accesses nothing. -/
theorem allInBounds_of_no_access {rank size : Int} {tr : List Event}
    (h : ∀ e ∈ tr, e.accesses rank size = []) : allInBounds rank size tr :=
  allInBounds_of_fits fun e he => fits_of_no_access (h e he)

theorem smallOnBuffer_send (rank size peer : Int) :
    (Event.send .buffer msg_size peer 0).smallOnBuffer rank size := by
  intro a ha
  simp only [Event.accesses, List.mem_singleton] at ha
  subst ha
  exact ⟨rfl, rfl, by decide, by decide⟩

theorem smallOnBuffer_recv (rank size peer : Int) :
    (Event.recv .buffer msg_size peer 0).smallOnBuffer rank size := by
  intro a ha
  simp only [Event.accesses, List.mem_singleton] at ha
  subst ha
  exact ⟨rfl, rfl, by decide, by decide⟩

theorem smallOnBuffer_bcast (rank size root : Int) :
    (Event.bcast .buffer msg_size root).smallOnBuffer rank size := by
  intro a ha
  simp only [Event.accesses, List.mem_singleton] at ha
  subst ha
  exact ⟨rfl, rfl, by decide, by decide⟩

theorem forall_pair {P : Event → Prop} {a b : Event} (ha : P a) (hb : P b) :
    ∀ e ∈ [a, b], P e := by
  intro e he
  simp only [List.mem_cons, List.mem_singleton, List.not_mem_nil, or_false] at he
  rcases he with rfl | rfl
  · exact ha
  · exact hb

theorem forall_single {P : Event → Prop} {a : Event} (ha : P a) : ∀ e ∈ [a], P e := by
  intro e he
  rw [List.mem_singleton.mp he]
  exact ha

theorem forall_ite {P : Event → Prop} {c : Prop} [Decidable c] {a b : List Event}
    (ha : ∀ e ∈ a, P e) (hb : ∀ e ∈ b, P e) : ∀ e ∈ (if c then a else b), P e := by
  split_ifs
  · exact ha
  · exact hb

theorem forall_nil {P : Event → Prop} : ∀ e ∈ ([] : List Event), P e := by
  intro e he
  cases he

theorem no_access_rejected (rank size : Int) (d : List Event)
    (hd : ∀ e ∈ d, ∃ m, e = Event.print m) :
    ∀ e ∈ [Event.init] ++ d ++ [Event.finalize], e.accesses rank size = [] := by
  apply forall_mem_append_of
  · apply forall_mem_append_of
    · exact forall_single rfl
    · intro e he
      obtain ⟨m, rfl⟩ := hd e he
      rfl
  · exact forall_single rfl

theorem pingpongflex_bounds (argv1 : Option Int) (rank size : Int) (alloc : Buf → Bool) :
    allInBounds rank size (pingpongflex_main argv1 rank size alloc).trace := by
  unfold pingpongflex_main
  simp only []
  split_ifs with c1 c2 c3 c4 c5
  · exact allInBounds_of_no_access (no_access_rejected rank size [_] (by simp))
  · exact allInBounds_of_no_access (no_access_rejected rank size [] (by simp))
  · exact allInBounds_of_no_access (no_access_rejected rank size [_] (by simp))
  · exact allInBounds_of_no_access (no_access_rejected rank size [] (by simp))
  · apply allInBounds_of_no_access
    intro e he
    simp only [List.mem_cons, List.mem_singleton, List.not_mem_nil, or_false] at he
    rcases he with rfl | rfl | rfl | rfl <;> rfl
  · exact allInBounds_single rank size _ _
      (forLoop_forall fun _ _ _ => forLoop_forall fun _ _ _ =>
        forall_ite forall_nil
          (forall_pair (smallOnBuffer_send rank size _) (smallOnBuffer_recv rank size _)))
  · exact allInBounds_single rank size _ _
      (forLoop_forall fun _ _ _ =>
        forall_pair (smallOnBuffer_recv rank size _) (smallOnBuffer_send rank size _))

theorem pingpong_bounds (rank size : Int) (alloc : Buf → Bool) :
    allInBounds rank size (pingpong_main rank size alloc).trace := by
  unfold pingpong_main
  split_ifs with c1 c2 c3 c4
  · exact allInBounds_of_no_access (no_access_rejected rank size [_] (by simp))
  · exact allInBounds_of_no_access (no_access_rejected rank size [] (by simp))
  · apply allInBounds_of_no_access
    intro e he
    simp only [List.mem_cons, List.mem_singleton, List.not_mem_nil, or_false] at he
    rcases he with rfl | rfl | rfl | rfl <;> rfl
  · exact allInBounds_single rank size _ _
      (forLoop_forall fun _ _ _ => forLoop_forall fun _ _ _ =>
        forall_pair (smallOnBuffer_send rank size _) (smallOnBuffer_recv rank size _))
  · exact allInBounds_single rank size _ _
      (forLoop_forall fun _ _ _ => forLoop_forall fun _ _ _ =>
        forall_ite
          (forall_pair (smallOnBuffer_recv rank size _) (smallOnBuffer_send rank size _))
          forall_nil)

theorem bcastflex_bounds (argv1 : Option Int) (rank size : Int) (alloc : Buf → Bool) :
    allInBounds rank size (bcastflex_main argv1 rank size alloc).trace := by
  unfold bcastflex_main
  simp only []
  split_ifs with c1 c2 c3
  · exact allInBounds_of_no_access (no_access_rejected rank size [_] (by simp))
  · exact allInBounds_of_no_access (no_access_rejected rank size [] (by simp))
  · apply allInBounds_of_no_access
    intro e he
    simp only [List.mem_cons, List.mem_singleton, List.not_mem_nil, or_false] at he
    rcases he with rfl | rfl | rfl | rfl <;> rfl
  · exact allInBounds_single rank size _ _
      (forLoop_forall fun _ _ _ => forall_single (smallOnBuffer_bcast rank size _))

theorem bcast_bounds (rank size : Int) (alloc : Buf → Bool) :
    allInBounds rank size (bcast_main rank alloc).trace := by
  unfold bcast_main
  split_ifs with c1
  · apply allInBounds_of_no_access
    intro e he
    simp only [List.mem_cons, List.mem_singleton, List.not_mem_nil, or_false] at he
    rcases he with rfl | rfl | rfl | rfl <;> rfl
  · exact allInBounds_single rank size _ _
      (forLoop_forall fun _ _ _ => forall_single (smallOnBuffer_bcast rank size _))

theorem capacityOf_append_left {a : List Event} {v : Buf} {c : Nat}
    (h : capacityOf a v = some c) (b : List Event) : capacityOf (a ++ b) v = some c := by
  unfold capacityOf at h ⊢
  rw [List.findSome?_append, h]
  rfl

theorem forall_no_access {cap : Buf → Option Nat} {rank size : Int} {l : List Event}
    (h : ∀ e ∈ l, e.accesses rank size = []) : ∀ e ∈ l, e.fits cap rank size :=
  fun e he => fits_of_no_access (h e he)

theorem all2all_total {size : Int} (h0 : 0 ≤ size) (h1 : size ≤ INT_MAX) :
    ((mulSizeT (toSizeT msg_size) (toSizeT size) : Nat) : Int) = 1024 * size := by
  have hs : ((toSizeT size : Nat) : Int) = size :=
    toSizeT_of_range size h0 (by unfold INT_MAX at h1; omega)
  unfold INT_MAX at h1
  rw [toSizeT_msg_size]
  unfold mulSizeT
  push_cast
  rw [hs]
  omega

theorem all2all_bounds (rank size : Int) (alloc : Buf → Bool)
    (h0 : 0 ≤ size) (h1 : size ≤ INT_MAX) :
    allInBounds rank size (all2all_main rank size alloc).trace := by
  unfold all2all_main
  simp only []
  by_cases c1 : alloc .send_buffer = false ∨ alloc .recv_buffer = false
  · rw [if_pos c1]
    apply allInBounds_of_no_access
    apply forall_mem_append_of
    · apply forall_mem_append_of
      · intro e he
        simp only [List.mem_cons, List.mem_singleton, List.not_mem_nil, or_false] at he
        rcases he with rfl | rfl | rfl <;> rfl
      · exact forall_ite (forall_single rfl) forall_nil
    · intro e he
      simp only [List.mem_cons, List.mem_singleton, List.not_mem_nil, or_false] at he
      rcases he with rfl | rfl | rfl <;> rfl
  · rw [if_neg c1]
    have htot := all2all_total h0 h1
    generalize mulSizeT (toSizeT msg_size) (toSizeT size) = total at htot ⊢
    apply allInBounds_of_fits
    have hcS : capacityOf ([Event.init, .malloc .send_buffer total true,
        .malloc .recv_buffer total true]) .send_buffer = some total := by
      simp [capacityOf_cons]
    have hcR : capacityOf ([Event.init, .malloc .send_buffer total true,
        .malloc .recv_buffer total true]) .recv_buffer = some total := by
      simp [capacityOf_cons]
    have hS := capacityOf_append_left (capacityOf_append_left (capacityOf_append_left hcS
      (forLoop 0 size fun i =>
        [Event.memset .send_buffer (mulSizeT (toSizeT i) (toSizeT msg_size))
          (toUChar (all2all_fillValue rank i)) (toSizeT msg_size)]))
      (forLoop 0 IT fun _ => [Event.alltoall .send_buffer .recv_buffer msg_size]))
      [Event.free .send_buffer true, Event.free .recv_buffer true, Event.finalize]
    have hR := capacityOf_append_left (capacityOf_append_left (capacityOf_append_left hcR
      (forLoop 0 size fun i =>
        [Event.memset .send_buffer (mulSizeT (toSizeT i) (toSizeT msg_size))
          (toUChar (all2all_fillValue rank i)) (toSizeT msg_size)]))
      (forLoop 0 IT fun _ => [Event.alltoall .send_buffer .recv_buffer msg_size]))
      [Event.free .send_buffer true, Event.free .recv_buffer true, Event.finalize]
    apply forall_mem_append_of
    · apply forall_mem_append_of
      · apply forall_mem_append_of
        · apply forall_no_access
          intro e he
          simp only [List.mem_cons, List.mem_singleton, List.not_mem_nil, or_false] at he
          rcases he with rfl | rfl | rfl <;> rfl
        · apply forLoop_forall
          intro i hi1 hi2
          apply forall_single
          intro a ha
          simp only [Event.accesses, List.mem_singleton] at ha
          subst ha
          refine ⟨total, hS, ?_, ?_, ?_⟩
          · show (0 : Int) ≤ ((mulSizeT (toSizeT i) (toSizeT msg_size) : Nat) : Int)
            omega
          · show (0 : Int) ≤ ((toSizeT msg_size : Nat) : Int)
            omega
          · show ((mulSizeT (toSizeT i) (toSizeT msg_size) : Nat) : Int)
              + ((toSizeT msg_size : Nat) : Int) ≤ (total : Int)
            rw [all2all_offset hi1 (by omega), toSizeT_msg_size, htot]
            push_cast
            omega
      · apply forLoop_forall
        intro i _ _
        apply forall_single
        intro a ha
        simp only [Event.accesses, List.mem_cons, List.mem_singleton, List.not_mem_nil,
          or_false] at ha
        rcases ha with rfl | rfl
        · refine ⟨total, hS, le_refl _, ?_, ?_⟩
          · show 0 ≤ msg_size * size
            unfold msg_size
            omega
          · show 0 + msg_size * size ≤ (total : Int)
            rw [htot]
            unfold msg_size
            omega
        · refine ⟨total, hR, le_refl _, ?_, ?_⟩
          · show 0 ≤ msg_size * size
            unfold msg_size
            omega
          · show 0 + msg_size * size ≤ (total : Int)
            rw [htot]
            unfold msg_size
            omega
    · apply forall_no_access
      intro e he
      simp only [List.mem_cons, List.mem_singleton, List.not_mem_nil, or_false] at he
      rcases he with rfl | rfl | rfl <;> rfl

theorem scatter_capacity {size : Int} (h0 : 0 ≤ size) (h1 : size ≤ 2047) :
    ((toSizeT (wrapInt32 (MAX_SIZE * size)) : Nat) : Int) = 1048576 * size := by
  unfold MAX_SIZE
  rw [wrapInt32_of_range _ (by omega) (by omega), toSizeT_of_range _ (by omega) (by omega)]

theorem scatter_bounds (rank size : Int) (alloc : Buf → Bool)
    (h0 : 0 ≤ size) (h1 : rank = 0 → size ≤ 2047) :
    allInBounds rank size (scatter_main rank size alloc).trace := by
  unfold scatter_main scatter_run
  split_ifs with c1 c2 c3
  · apply allInBounds_of_no_access
    intro e he
    simp only [List.mem_cons, List.mem_singleton, List.not_mem_nil, or_false] at he
    rcases he with rfl | rfl | rfl | rfl <;> rfl
  · apply allInBounds_of_no_access
    intro e he
    simp only [List.mem_cons, List.mem_singleton, List.not_mem_nil, or_false] at he
    rcases he with rfl | rfl | rfl | rfl | rfl | rfl <;> rfl
  · have hcap := scatter_capacity h0 (h1 c3)
    generalize toSizeT (wrapInt32 (MAX_SIZE * size)) = cap at hcap ⊢
    apply allInBounds_of_fits
    have hcR : capacityOf ([Event.init, .malloc .recv_buffer (toSizeT MAX_SIZE) true]
        ++ ([Event.malloc .send_buffer cap true]
          ++ forLoop 0 size fun i =>
            [Event.memset .send_buffer (wrapInt32 (i * MAX_SIZE))
              (toUChar (wrapInt32 (65 + i))) (toSizeT MAX_SIZE)])) .recv_buffer
        = some 1048576 :=
      capacityOf_append_left (by simp [capacityOf_cons, toSizeT_MAX_SIZE]) _
    have hcS : capacityOf ([Event.init, .malloc .recv_buffer (toSizeT MAX_SIZE) true]
        ++ ([Event.malloc .send_buffer cap true]
          ++ forLoop 0 size fun i =>
            [Event.memset .send_buffer (wrapInt32 (i * MAX_SIZE))
              (toUChar (wrapInt32 (65 + i))) (toSizeT MAX_SIZE)])) .send_buffer
        = some cap := by
      rw [← List.append_assoc]
      exact capacityOf_append_left (by simp [capacityOf_cons]) _
    have hR := capacityOf_append_left (capacityOf_append_left (capacityOf_append_left
      (capacityOf_append_left hcR
        (forLoop 0 IT fun _ => [Event.scatter .send_buffer .recv_buffer msg_size 0]))
      [Event.free .recv_buffer true]) [Event.free .send_buffer true]) [Event.finalize]
    have hS := capacityOf_append_left (capacityOf_append_left (capacityOf_append_left
      (capacityOf_append_left hcS
        (forLoop 0 IT fun _ => [Event.scatter .send_buffer .recv_buffer msg_size 0]))
      [Event.free .recv_buffer true]) [Event.free .send_buffer true]) [Event.finalize]
    apply forall_mem_append_of
    · apply forall_mem_append_of
      · apply forall_mem_append_of
        · apply forall_mem_append_of
          · apply forall_mem_append_of
            · exact forall_no_access (forall_pair rfl rfl)
            · apply forall_mem_append_of
              · exact forall_no_access (forall_single rfl)
              · apply forLoop_forall
                intro i hi1 hi2
                apply forall_single
                intro a ha
                simp only [Event.accesses, List.mem_singleton] at ha
                subst ha
                have hoff := scatter_offset i hi1 (by have := h1 c3; omega)
                refine ⟨cap, hS, ?_, ?_, ?_⟩
                · show 0 ≤ wrapInt32 (i * MAX_SIZE)
                  rw [hoff]
                  omega
                · show (0 : Int) ≤ ((toSizeT MAX_SIZE : Nat) : Int)
                  omega
                · show wrapInt32 (i * MAX_SIZE) + ((toSizeT MAX_SIZE : Nat) : Int) ≤ (cap : Int)
                  rw [hoff, toSizeT_MAX_SIZE, hcap]
                  push_cast
                  omega
          · apply forLoop_forall
            intro i _ _
            apply forall_single
            intro a ha
            simp only [Event.accesses, c3, if_true, List.cons_append, List.nil_append,
              List.mem_cons, List.mem_singleton, List.not_mem_nil, or_false] at ha
            rcases ha with rfl | rfl
            · refine ⟨cap, hS, le_refl _, ?_, ?_⟩
              · show 0 ≤ msg_size * size
                unfold msg_size
                omega
              · show 0 + msg_size * size ≤ (cap : Int)
                rw [hcap]
                unfold msg_size
                omega
            · exact ⟨1048576, hR, le_refl _, by decide, by decide⟩
        · exact forall_no_access (forall_single rfl)
      · exact forall_no_access (forall_single rfl)
    · exact forall_no_access (forall_single rfl)
  · apply allInBounds_of_fits
    have hcR : capacityOf ([Event.init, .malloc .recv_buffer (toSizeT MAX_SIZE) true]
        ++ []) .recv_buffer = some 1048576 :=
      capacityOf_append_left (by simp [capacityOf_cons, toSizeT_MAX_SIZE]) _
    have hR := capacityOf_append_left (capacityOf_append_left (capacityOf_append_left
      (capacityOf_append_left hcR
        (forLoop 0 IT fun _ => [Event.scatter .send_buffer .recv_buffer msg_size 0]))
      [Event.free .recv_buffer true]) []) [Event.finalize]
    apply forall_mem_append_of
    · apply forall_mem_append_of
      · apply forall_mem_append_of
        · apply forall_mem_append_of
          · apply forall_mem_append_of
            · exact forall_no_access (forall_pair rfl rfl)
            · exact forall_nil
          · apply forLoop_forall
            intro i _ _
            apply forall_single
            intro a ha
            simp only [Event.accesses, c3, if_false, List.nil_append,
              List.mem_singleton] at ha
            subst ha
            exact ⟨1048576, hR, le_refl _, by decide, by decide⟩
        · exact forall_no_access (forall_single rfl)
      · exact forall_nil
    · exact forall_no_access (forall_single rfl)

theorem reduce_elements_msg_size : reduce_elements msg_size = 256 := by decide

theorem reduce_bounds (rank size : Int) (alloc : Buf → Bool) :
    allInBounds rank size (reduce_main rank alloc).trace := by
  unfold reduce_main reduce_run
  rw [reduce_elements_msg_size]
  have hfill : ∀ (cap : Buf → Option Nat), cap .send_buffer = some 1048576 →
      ∀ e ∈ (forLoop 0 reduce_num_elements fun i =>
        [Event.storeInt .send_buffer i (wrapInt32 (rank + 1))]), e.fits cap rank size := by
    intro cap hcap
    apply forLoop_forall
    intro i hi1 hi2
    rw [reduce_num_elements_eq] at hi2
    apply forall_single
    intro a ha
    simp only [Event.accesses, List.mem_singleton] at ha
    subst ha
    refine ⟨1048576, hcap, ?_, ?_, ?_⟩
    · show 0 ≤ i * ((sizeofInt : Nat) : Int)
      unfold sizeofInt
      omega
    · show (0 : Int) ≤ ((sizeofInt : Nat) : Int)
      omega
    · show i * ((sizeofInt : Nat) : Int) + ((sizeofInt : Nat) : Int) ≤ ((1048576 : Nat) : Int)
      unfold sizeofInt
      omega
  generalize (forLoop 0 reduce_num_elements fun i =>
    [Event.storeInt .send_buffer i (wrapInt32 (rank + 1))]) = fill at hfill ⊢
  split_ifs with c1 c2 c3
  · apply allInBounds_of_no_access
    intro e he
    simp only [List.mem_cons, List.mem_singleton, List.not_mem_nil, or_false] at he
    rcases he with rfl | rfl | rfl | rfl <;> rfl
  · apply allInBounds_of_no_access
    intro e he
    simp only [List.mem_cons, List.mem_singleton, List.not_mem_nil, or_false] at he
    rcases he with rfl | rfl | rfl | rfl | rfl | rfl <;> rfl
  · apply allInBounds_of_fits
    have hcS : capacityOf ([Event.init, .malloc .send_buffer (toSizeT MAX_SIZE) true]
        ++ [Event.malloc .recv_buffer (toSizeT MAX_SIZE) true]) .send_buffer
        = some 1048576 := by
      simp [capacityOf_cons, toSizeT_MAX_SIZE]
    have hcR : capacityOf ([Event.init, .malloc .send_buffer (toSizeT MAX_SIZE) true]
        ++ [Event.malloc .recv_buffer (toSizeT MAX_SIZE) true]) .recv_buffer
        = some 1048576 := by
      simp [capacityOf_cons, toSizeT_MAX_SIZE]
    have hS := capacityOf_append_left (capacityOf_append_left (capacityOf_append_left
      (capacityOf_append_left (capacityOf_append_left hcS fill)
        (forLoop 0 IT fun _ => [Event.reduce .send_buffer .recv_buffer 256 0]))
      [Event.free .send_buffer true]) [Event.free .recv_buffer true]) [Event.finalize]
    have hR := capacityOf_append_left (capacityOf_append_left (capacityOf_append_left
      (capacityOf_append_left (capacityOf_append_left hcR fill)
        (forLoop 0 IT fun _ => [Event.reduce .send_buffer .recv_buffer 256 0]))
      [Event.free .send_buffer true]) [Event.free .recv_buffer true]) [Event.finalize]
    apply forall_mem_append_of
    · apply forall_mem_append_of
      · apply forall_mem_append_of
        · apply forall_mem_append_of
          · apply forall_mem_append_of
            · apply forall_mem_append_of
              · exact forall_no_access (forall_pair rfl rfl)
              · exact forall_no_access (forall_single rfl)
            · exact hfill _ hS
          · apply forLoop_forall
            intro i _ _
            apply forall_single
            intro a ha
            simp only [Event.accesses, c3, if_true, List.cons_append, List.nil_append,
              List.mem_cons, List.mem_singleton, List.not_mem_nil, or_false] at ha
            rcases ha with rfl | rfl
            · exact ⟨1048576, hS, le_refl _, by decide, by decide⟩
            · exact ⟨1048576, hR, le_refl _, by decide, by decide⟩
        · exact forall_no_access (forall_single rfl)
      · exact forall_no_access (forall_single rfl)
    · exact forall_no_access (forall_single rfl)
  · apply allInBounds_of_fits
    have hcS : capacityOf ([Event.init, .malloc .send_buffer (toSizeT MAX_SIZE) true]
        ++ []) .send_buffer = some 1048576 := by
      simp [capacityOf_cons, toSizeT_MAX_SIZE]
    have hS := capacityOf_append_left (capacityOf_append_left (capacityOf_append_left
      (capacityOf_append_left (capacityOf_append_left hcS fill)
        (forLoop 0 IT fun _ => [Event.reduce .send_buffer .recv_buffer 256 0]))
      [Event.free .send_buffer true]) []) [Event.finalize]
    apply forall_mem_append_of
    · apply forall_mem_append_of
      · apply forall_mem_append_of
        · apply forall_mem_append_of
          · apply forall_mem_append_of
            · apply forall_mem_append_of
              · exact forall_no_access (forall_pair rfl rfl)
              · exact forall_nil
            · exact hfill _ hS
          · apply forLoop_forall
            intro i _ _
            apply forall_single
            intro a ha
            simp only [Event.accesses, c3, if_false, List.append_nil,
              List.mem_singleton] at ha
            subst ha
            exact ⟨1048576, hS, le_refl _, by decide, by decide⟩
        · exact forall_no_access (forall_single rfl)
      · exact forall_nil
    · exact forall_no_access (forall_single rfl)

/-- In every program the byte ranges written by the fill and accessed by the
communication calls lie inside the capacities requested, for every group size in the
range of `int`, provided the root of `scatter` has at most 2047 processes in its group
(beyond, the `int` product `MAX_SIZE * size` overflows). -/
theorem accesses_in_bounds (p : Program) (x : Input) (h0 : 0 ≤ x.size)
    (h1 : x.size ≤ INT_MAX) (hsc : p = .scatter → x.rank = 0 → x.size ≤ 2047) :
    allInBounds x.rank x.size (run p x).trace := by
  cases p with
  | all2all => exact all2all_bounds _ _ _ h0 h1
  | bcast => exact bcast_bounds _ _ _
  | bcastflex => exact bcastflex_bounds _ _ _ _
  | pingpong => exact pingpong_bounds _ _ _
  | pingpongflex => exact pingpongflex_bounds _ _ _ _
  | reduce => exact reduce_bounds _ _ _
  | scatter => exact scatter_bounds _ _ _ h0 (hsc rfl)

/-! ## The claims -/

/-- C1: in `pingpongflex` a process ends with exit code 1 having called neither `malloc`
nor any communication primitive exactly when the configured role `r` satisfies `r < 0`,
`r ≥ N` or the group size `N` is below 2; in `bcastflex` exactly when `r < 0` or `r ≥ N`.
This holds for every rank, every group size and every allocation outcome, so the
decision depends on `(r, N)` only and is the same on every rank. -/
theorem C1_validation_decision (argv1 : Option Int) (rank size : Int) (alloc : Buf → Bool) :
    (rejectedEarly (pingpongflex_main argv1 rank size alloc)
        ↔ roleOf argv1 < 0 ∨ roleOf argv1 ≥ size ∨ size < 2)
    ∧ (rejectedEarly (bcastflex_main argv1 rank size alloc)
        ↔ roleOf argv1 < 0 ∨ roleOf argv1 ≥ size)
    ∧ (∀ (rank2 : Int) (alloc2 : Buf → Bool),
        (rejectedEarly (pingpongflex_main argv1 rank2 size alloc2)
          ↔ rejectedEarly (pingpongflex_main argv1 rank size alloc))
        ∧ (rejectedEarly (bcastflex_main argv1 rank2 size alloc2)
          ↔ rejectedEarly (bcastflex_main argv1 rank size alloc))) := by
  refine ⟨pingpongflex_rejectedEarly_iff argv1 rank size alloc,
    bcastflex_rejectedEarly_iff argv1 rank size alloc, ?_⟩
  intro rank2 alloc2
  constructor
  · rw [pingpongflex_rejectedEarly_iff, pingpongflex_rejectedEarly_iff]
  · rw [bcastflex_rejectedEarly_iff, bcastflex_rejectedEarly_iff]

/-- C2: with a valid role `r < N` and a successful allocation, `bcastflex` ends with exit
code 0 on every rank after exactly 100 broadcasts of 1024 chars with root `r`; with
`N ≥ 2`, `pingpongflex` ends with exit code 0 on every rank, the hub performs 100 rounds
of send-then-receive over the destinations `0 .. N-1` other than `r` in ascending order
(`100 * (N - 1)` sends, none addressed to itself), every other rank performs 100 rounds
of receive-from-`r` then send-to-`r`, and for each peer `p` the hub's sends to `p` are as
many as the receives `p` posts from the hub. -/
theorem C2_normal_completion (argv1 : Option Int) (N r : Nat) (rank : Int)
    (alloc : Buf → Bool) (hrole : roleOf argv1 = (r : Int)) (hr : r < N)
    (hok : alloc .buffer = true) :
    ((bcastflex_main argv1 rank (N : Int) alloc).exit = 0
      ∧ commCalls (bcastflex_main argv1 rank (N : Int) alloc).trace
          = List.replicate 100 (Event.bcast .buffer 1024 (r : Int)))
    ∧ (2 ≤ N →
        (pingpongflex_main argv1 rank (N : Int) alloc).exit = 0
        ∧ (rank = (r : Int) →
            commCalls (pingpongflex_main argv1 rank (N : Int) alloc).trace
                = (List.replicate 100 (hubRound N (r : Int))).flatten
            ∧ List.countP Event.isSend
                (commCalls (pingpongflex_main argv1 rank (N : Int) alloc).trace) = 100 * (N - 1)
            ∧ ∀ e ∈ commCalls (pingpongflex_main argv1 rank (N : Int) alloc).trace,
                e.peer ≠ some (r : Int))
        ∧ (rank ≠ (r : Int) →
            commCalls (pingpongflex_main argv1 rank (N : Int) alloc).trace
                = (List.replicate 100 (peerRound (r : Int))).flatten)
        ∧ ∀ p : Nat, p < N → p ≠ r →
            List.count (Event.send .buffer 1024 (p : Int) 0)
                (commCalls (pingpongflex_main argv1 (r : Int) (N : Int) alloc).trace) = 100
            ∧ List.count (Event.recv .buffer 1024 (r : Int) 0)
                (commCalls (pingpongflex_main argv1 (p : Int) (N : Int) alloc).trace) = 100) := by
  refine ⟨?_, ?_⟩
  · rw [bcastflex_main_ok (by omega) (by omega) hok, hrole]
    refine ⟨rfl, ?_⟩
    have hc : ∀ e ∈ List.replicate 100 (Event.bcast .buffer msg_size (r : Int)),
        e.isComm = true := by
      intro e he
      rw [List.eq_of_mem_replicate he]
      rfl
    exact commCalls_framed _ hc _ _ _
  · intro h2
    refine ⟨?_, ?_, ?_, ?_⟩
    · rw [pingpongflex_main_ok (by omega) (by omega) h2 hok]
    · intro hrank
      subst hrank
      rw [pingpongflex_commCalls_hub hrole hr h2 hok]
      refine ⟨rfl, ?_, ?_⟩
      · rw [countP_flatten_replicate, countP_isSend_hubRound hr]
      · intro e he
        exact hubRound_peer N _ e (mem_flatten_replicate he)
    · intro hne
      exact pingpongflex_commCalls_peer hrole hr h2 hok hne
    · intro p hp hpr
      have hpne : (p : Int) ≠ (r : Int) := by omega
      rw [pingpongflex_commCalls_hub hrole hr h2 hok,
        pingpongflex_commCalls_peer hrole hr h2 hok hpne,
        count_flatten_replicate, count_flatten_replicate]
      have h1 := count_send_hubRound hp hpr
      unfold msg_size at h1
      rw [h1]
      constructor
      · rfl
      · simp [peerRound, msg_size, List.count_cons]

/-- Witness of C2: three processes with hub 1, observed on the hub (rank 1) and on a
peer (rank 2). -/
theorem C2_normal_completion_witness :
    ((bcastflex_main (some 1) 1 3 (fun _ => true)).exit = 0
      ∧ commCalls (bcastflex_main (some 1) 1 3 (fun _ => true)).trace
          = List.replicate 100 (Event.bcast .buffer 1024 1))
    ∧ (pingpongflex_main (some 1) 1 3 (fun _ => true)).exit = 0
    ∧ commCalls (pingpongflex_main (some 1) 1 3 (fun _ => true)).trace
        = (List.replicate 100
            [Event.send .buffer 1024 0 0, Event.recv .buffer 1024 0 0,
             Event.send .buffer 1024 2 0, Event.recv .buffer 1024 2 0]).flatten
    ∧ List.countP Event.isSend
        (commCalls (pingpongflex_main (some 1) 1 3 (fun _ => true)).trace) = 200
    ∧ (pingpongflex_main (some 1) 2 3 (fun _ => true)).exit = 0
    ∧ commCalls (pingpongflex_main (some 1) 2 3 (fun _ => true)).trace
        = (List.replicate 100
            [Event.recv .buffer 1024 1 0, Event.send .buffer 1024 1 0]).flatten := by
  have hub := C2_normal_completion (some 1) 3 1 1 (fun _ => true) rfl (by decide) rfl
  have peer := C2_normal_completion (some 1) 3 1 2 (fun _ => true) rfl (by decide) rfl
  have hubP := hub.2 (by decide)
  have peerP := peer.2 (by decide)
  exact ⟨hub.1, hubP.1, (hubP.2.1 rfl).1, (hubP.2.1 rfl).2.1, peerP.1,
    peerP.2.2.1 (by decide)⟩

/-- C3 as stated fails: in `all2all` on rank 1 of a group of 2, both allocations fail and
the process prints no diagnostic at all, so none naming its own rank. -/
theorem C3_counterexample :
    (∃ e ∈ (run .all2all ⟨none, 1, 2, fun _ => false⟩).trace, e.isFailedMalloc = true)
    ∧ diagnostics (run .all2all ⟨none, 1, 2, fun _ => false⟩).trace = []
    ∧ ¬ ∃ d ∈ diagnostics (run .all2all ⟨none, 1, 2, fun _ => false⟩).trace,
        d.identity = some 1 := by
  refine ⟨⟨Event.malloc .send_buffer 2048 false, by decide, rfl⟩, by decide, by decide⟩

/-- C3, amended: in every program, on every rank and for every group size, a process one
of whose allocations fails ends with exit code 1 and issues no communication call; in
every program other than `all2all` it prints a diagnostic naming its own rank; in
`all2all` the diagnostic gives the number of bytes requested per buffer and is printed
exactly when the rank is 0. -/
theorem C3_allocation_failure (p : Program) (x : Input)
    (h : ∃ e ∈ (run p x).trace, e.isFailedMalloc = true) :
    (run p x).exit = 1
    ∧ commCalls (run p x).trace = []
    ∧ (p ≠ .all2all → ∃ d ∈ diagnostics (run p x).trace, d.identity = some x.rank)
    ∧ (p = .all2all →
        diagnostics (run p x).trace
          = if x.rank = 0 then [Diag.allocFailBytes (mulSizeT 1024 (toSizeT x.size))]
            else []) := by
  cases p with
  | all2all =>
    have := all2all_alloc_failure x.rank x.size x.alloc h
    exact ⟨this.1, this.2.1, fun hne => absurd rfl hne, fun _ => this.2.2⟩
  | bcast =>
    have := bcast_alloc_failure x.rank x.alloc h
    exact ⟨this.1, this.2.1, fun _ => this.2.2, fun hp => by cases hp⟩
  | bcastflex =>
    have := bcastflex_alloc_failure x.argv1 x.rank x.size x.alloc h
    exact ⟨this.1, this.2.1, fun _ => this.2.2, fun hp => by cases hp⟩
  | pingpong =>
    have := pingpong_alloc_failure x.rank x.size x.alloc h
    exact ⟨this.1, this.2.1, fun _ => this.2.2, fun hp => by cases hp⟩
  | pingpongflex =>
    have := pingpongflex_alloc_failure x.argv1 x.rank x.size x.alloc h
    exact ⟨this.1, this.2.1, fun _ => this.2.2, fun hp => by cases hp⟩
  | reduce =>
    have := reduce_alloc_failure msg_size x.rank x.alloc h
    exact ⟨this.1, this.2.1, fun _ => this.2.2, fun hp => by cases hp⟩
  | scatter =>
    have := scatter_alloc_failure msg_size x.rank x.size x.alloc h
    exact ⟨this.1, this.2.1, fun _ => this.2.2, fun hp => by cases hp⟩

/-- Witness of the amended C3: the root of `scatter` in a group of 3 whose second
allocation (the send buffer) fails. -/
theorem C3_allocation_failure_witness :
    (∃ e ∈ (run .scatter ⟨none, 0, 3, fun b => decide (b = Buf.recv_buffer)⟩).trace,
        e.isFailedMalloc = true)
    ∧ (run .scatter ⟨none, 0, 3, fun b => decide (b = Buf.recv_buffer)⟩).exit = 1
    ∧ commCalls (run .scatter ⟨none, 0, 3, fun b => decide (b = Buf.recv_buffer)⟩).trace = []
    ∧ ∃ d ∈ diagnostics (run .scatter ⟨none, 0, 3, fun b => decide (b = Buf.recv_buffer)⟩).trace,
        d.identity = some 0 := by
  have hf : ∃ e ∈ (run .scatter ⟨none, 0, 3, fun b => decide (b = Buf.recv_buffer)⟩).trace,
      e.isFailedMalloc = true :=
    ⟨Event.malloc .send_buffer 3145728 false, by decide, rfl⟩
  have h := C3_allocation_failure .scatter ⟨none, 0, 3, fun b => decide (b = Buf.recv_buffer)⟩ hf
  exact ⟨hf, h.1, h.2.1, h.2.2.1 (by decide)⟩

/-- C4 fails on the code: in a group of 3, with the message size of the program (1024),
what the scatter delivers to destination 1 starts with the byte 65 (`'A'`), the value of
destination 0, not 66 (`'B'`): the fill writes the value of destination `i` at stride
`MAX_SIZE` while the scatter cuts the send buffer at stride `msg_size`, so destinations
0, 1 and 2 all receive bytes of segment 0. The same holds with message size 1. -/
theorem C4_scatter_same_content :
    scatterReceived (memAfter (scatter_main 0 3 (fun _ => true)).trace .send_buffer) 1024 0 0
        = some 65
    ∧ scatterReceived (memAfter (scatter_main 0 3 (fun _ => true)).trace .send_buffer) 1024 1 0
        = some 65
    ∧ scatterReceived (memAfter (scatter_main 0 3 (fun _ => true)).trace .send_buffer) 1024 2
        1023 = some 65
    ∧ scatterReceived (memAfter (scatter_run 1 0 3 (fun _ => true)).trace .send_buffer) 1 1 0
        = some 65
    ∧ scatterReceived (memAfter (scatter_run 1 0 3 (fun _ => true)).trace .send_buffer) 1 2 0
        = some 65 := by
  have h : ∀ (w t : Int), 0 ≤ t → t < 1048576 →
      memAfter (scatter_run w 0 3 (fun _ => true)).trace .send_buffer (0 * 1048576 + t)
        = some (toUChar (65 + 0)) :=
    fun w t h1 h2 => scatter_send_content w 3 (fun _ => true) rfl rfl (by decide) 0 t
      (by decide) (by decide) h1 h2
  refine ⟨?_, ?_, ?_, ?_, ?_⟩
  · exact h msg_size 0 (by decide) (by decide)
  · exact h msg_size 1024 (by decide) (by decide)
  · exact h msg_size 3071 (by decide) (by decide)
  · exact h 1 1 (by decide) (by decide)
  · exact h 1 2 (by decide) (by decide)

/-- C7: for every message size `m ≥ 0` (a value of `int`) the element count of the
reduction is `max(1, floor(m / 4))`, never zero, and it is the count passed to each of the
100 `MPI_Reduce` calls of a run whose allocations succeed; for the message size of the
program, 1024, the count is 256. -/
theorem C7_reduce_element_count (m : Int) (h0 : 0 ≤ m) (h1 : m ≤ INT_MAX) :
    reduce_elements m = max 1 (m / 4)
    ∧ reduce_elements m ≠ 0
    ∧ (∀ (rank : Int) (alloc : Buf → Bool), alloc .send_buffer = true →
        (rank = 0 → alloc .recv_buffer = true) →
        commCalls (reduce_run m rank alloc).trace
          = List.replicate 100 (Event.reduce .send_buffer .recv_buffer (max 1 (m / 4)) 0))
    ∧ reduce_elements 1024 = 256
    ∧ (∀ (rank : Int) (alloc : Buf → Bool), alloc .send_buffer = true →
        (rank = 0 → alloc .recv_buffer = true) →
        commCalls (reduce_main rank alloc).trace
          = List.replicate 100 (Event.reduce .send_buffer .recv_buffer 256 0)) := by
  have he := reduce_elements_eq h0 h1
  have h1024 : reduce_elements msg_size = 256 := by decide
  refine ⟨he, ?_, ?_, by decide, ?_⟩
  · rw [he]
    have : (1 : Int) ≤ max 1 (m / 4) := le_max_left _ _
    omega
  · intro rank alloc hs hr
    rw [(reduce_commCalls m rank alloc hs hr).2, he]
  · intro rank alloc hs hr
    unfold reduce_main
    rw [(reduce_commCalls msg_size rank alloc hs hr).2, h1024]

/-- Witness of C7: a message size of 3 bytes, below one element. -/
theorem C7_reduce_element_count_witness :
    reduce_elements 3 = max 1 (3 / 4)
    ∧ reduce_elements 3 ≠ 0
    ∧ commCalls (reduce_run 3 0 (fun _ => true)).trace
        = List.replicate 100 (Event.reduce .send_buffer .recv_buffer 1 0) := by
  have h := C7_reduce_element_count 3 (by decide) (by decide)
  exact ⟨h.1, h.2.1, h.2.2.1 0 (fun _ => true) rfl (fun _ => rfl)⟩

/-- C9 fails on the code: on the root of `scatter` in a group of 4096 processes the
`int` product `MAX_SIZE * size` is 2^32 and wraps to 0, so the capacity requested for the
send buffer is 0 bytes, while the first `memset` of the fill writes the 1048576 bytes at
offsets `0 .. 1048575` of that buffer. -/
theorem C9_scatter_fill_out_of_bounds :
    capacityOf (scatter_main 0 4096 (fun _ => true)).trace .send_buffer = some 0
    ∧ (⟨.send_buffer, 0, 1048576⟩ : Access)
        ∈ accessesOf 0 4096 (scatter_main 0 4096 (fun _ => true)).trace
    ∧ Access.inBounds (scatter_main 0 4096 (fun _ => true)).trace
        ⟨.send_buffer, 0, 1048576⟩ = false := by
  have hcap : capacityOf (scatter_main 0 4096 (fun _ => true)).trace .send_buffer = some 0 := by
    unfold scatter_main scatter_run capacityOf
    simp only [Bool.true_eq_false, if_false, and_false, if_true, List.append_assoc,
      List.cons_append, List.nil_append, List.findSome?_cons]
    decide
  refine ⟨hcap, ?_, ?_⟩
  · unfold accessesOf
    rw [List.mem_flatMap]
    refine ⟨Event.memset .send_buffer (wrapInt32 (0 * MAX_SIZE)) (toUChar (wrapInt32 (65 + 0)))
      (toSizeT MAX_SIZE), ?_, by decide⟩
    unfold scatter_main scatter_run
    simp only [Bool.true_eq_false, if_false, and_false, if_true, List.mem_append]
    refine Or.inl (Or.inl (Or.inl (Or.inl (Or.inr (Or.inr ?_)))))
    exact mem_forLoop.mpr ⟨0, by decide, by decide, List.mem_singleton.mpr rfl⟩
  · unfold Access.inBounds
    simp only [hcap]
    decide

/-- C10: for every group size `N ≥ 1`, every rank in `0 .. N-1` and every allocation
outcome, `pingpongflex` run with master 0 (in particular without argument, where 0 is the
default) performs exactly the calls of `pingpong` and ends with the same exit code; in particular the diagnostics and the
sequence of send/receive calls are the same, and the scan of the fixed-root worker over
`source = 1 .. N-1` performs one receive-from-0 and one send-to-0 per iteration. -/
theorem C10_flex_default_refines_fixed (argv1 : Option Int) (rank size : Int)
    (alloc : Buf → Bool) (hrole : roleOf argv1 = 0)
    (hN : 1 ≤ size) (h0 : 0 ≤ rank) (h1 : rank < size) :
    roleOf none = 0
    ∧ (pingpongflex_main argv1 rank size alloc).exit = (pingpong_main rank size alloc).exit
    ∧ diagnostics (pingpongflex_main argv1 rank size alloc).trace
        = diagnostics (pingpong_main rank size alloc).trace
    ∧ commCalls (pingpongflex_main argv1 rank size alloc).trace
        = commCalls (pingpong_main rank size alloc).trace
    ∧ (pingpongflex_main argv1 rank size alloc).trace = (pingpong_main rank size alloc).trace
    ∧ (1 ≤ rank →
        (forLoop 1 size fun source =>
            if rank = source then
              [Event.recv .buffer msg_size 0 0, Event.send .buffer msg_size 0 0]
            else [])
          = [Event.recv .buffer 1024 0 0, Event.send .buffer 1024 0 0]) := by
  rw [pingpongflex_default_eq_pingpong argv1 rank size alloc hrole hN h0 h1]
  refine ⟨rfl, rfl, rfl, rfl, rfl, ?_⟩
  intro hr
  exact workerScan_eq hr h1 _

/-- Witness of C10: rank 2 of a group of 4, allocation successful. -/
theorem C10_flex_default_refines_fixed_witness :
    (pingpongflex_main none 2 4 (fun _ => true)).exit
        = (pingpong_main 2 4 (fun _ => true)).exit
    ∧ diagnostics (pingpongflex_main none 2 4 (fun _ => true)).trace
        = diagnostics (pingpong_main 2 4 (fun _ => true)).trace
    ∧ commCalls (pingpongflex_main none 2 4 (fun _ => true)).trace
        = commCalls (pingpong_main 2 4 (fun _ => true)).trace
    ∧ (pingpongflex_main none 2 4 (fun _ => true)).trace
        = (pingpong_main 2 4 (fun _ => true)).trace
    ∧ (forLoop 1 4 fun source =>
          if (2 : Int) = source then
            [Event.recv .buffer msg_size 0 0, Event.send .buffer msg_size 0 0]
          else [])
        = [Event.recv .buffer 1024 0 0, Event.send .buffer 1024 0 0] := by
  have h := C10_flex_default_refines_fixed none 2 4 (fun _ => true) rfl (by decide)
    (by decide) (by decide)
  exact ⟨h.2.1, h.2.2.1, h.2.2.2.1, h.2.2.2.2.1, h.2.2.2.2.2 (by decide)⟩

end SimGridBench
